import Mathlib

/-!
Verification of the natural-language specification of the Impact Project Room
app (`src/app.py`) against the code.  The Python helpers under verification are
pure (or are modelled with their effectful dependencies as explicit inputs):

* `_match_sdgs` — controlled-vocabulary matcher built on
  `difflib.get_close_matches(s, SDG_OPTIONS, n=1, cutoff=0.6)`;
* `_parse_json_from_string` — JSON repair parser built on `json.loads`;
* `summarize_project_with_gpt` — backend call, JSON repair parse, and
  `setdefault`-based merge/defaulting over `AI_FIELDS`;
* `extract_text_from_file` — extension dispatch over format-specific readers.

Python strings are modelled as lists of Unicode code points (`List Nat`), the
Python `json` module's `loads`/`dumps` as executable functions over those
lists, and `difflib.SequenceMatcher`'s ratio via its matching-blocks total.
-/

namespace ImpactApp

/-- Code points of a string: the model of a Python `str` value. -/
def codes (s : String) : List Nat := s.data.map Char.toNat

/-- `AI_FIELDS` from `src/app.py`: the fixed schema field list. -/
def AI_FIELDS : List String := [
  "Project Name", "Specific Sector(s)", "Region of operation", "Main country of current operations",
  "Business Model", "Maturity stage", "Core team", "Key risks",
  "Last 12 months revenues (USD)", "Breakeven year", "Market size or SOM (USD)",
  "Expected IRR (%)", "Financing need or round size (USD)", "Instrument",
  "Use of proceeds (%)", "Impact Area", "3 main SDGs targeted",
  "Problem", "Solution", "Barrier(s) to entry"]

/-- `SDG_OPTIONS` from `src/app.py` (the second, authoritative assignment):
the fixed canonical SDG vocabulary. -/
def SDG_OPTIONS : List String := [
  "No poverty (SDG 1)",
  "Zero hunger (SDG 2)",
  "Good health and well-being (SDG 3)",
  "Quality education (SDG 4)",
  "Gender equality (SDG 5)",
  "Clean water and sanitation (SDG 6)",
  "Affordable and clean energy (SDG 7)",
  "Decent work and economic growth (SDG 8)",
  "Industry, innovation and infrastructure (SDG 9)",
  "Reduced inequalities (SDG 10)",
  "Sustainable cities and communities (SDG 11)",
  "Responsible consumption and production (SDG 12)",
  "Climate action (SDG 13)",
  "Life below water (SDG 14)",
  "Life on land (SDG 15)",
  "Peace, justice, and strong institutions (SDG 16)",
  "Partnerships for the goals (SDG 17)"]

/-!
## Model of `difflib.SequenceMatcher` / `difflib.get_close_matches`

The sequences involved are the candidate strings and the vocabulary labels; the
matcher is called with `autojunk` only ever affecting sequences of length ≥ 200,
which never happens for the vocabulary, and the claims settled concretely only
involve short candidates, so the junk-free algorithm is the faithful model.

`find_longest_match` (junk-free) returns the longest block `a[i:i+k] = b[j:j+k]`,
ties broken by smallest `i`, then smallest `j`.  `get_matching_blocks` recurses
on the two sides of that block; `ratio` is `2*M/T` where `M` is the total size
of all matching blocks and `T` the sum of the lengths.  `ratio ≥ 0.6` is decided
here as the exact rational comparison `10*M ≥ 3*T`, which agrees with the
floating-point comparison for the short strings involved (the two grids of
representable values only collide at exact equality for these magnitudes).
-/

/-- Length of the longest common prefix of two code-point lists. -/
def commonRun : List Nat → List Nat → Nat
  | a :: as, b :: bs => if a = b then commonRun as bs + 1 else 0
  | _, _ => 0

/-- Best match of `sa` against all suffixes of `b`: returns `(j, k)` where the
longest common prefix of `sa` and `b.drop j` has length `k`, maximising `k` and
tie-breaking by smallest `j` (the `difflib` scan order). -/
def bestRow (sa : List Nat) : List Nat → Nat × Nat
  | [] => (0, 0)
  | b :: bs =>
    let k := commonRun sa (b :: bs)
    let p := bestRow sa bs
    if p.2 > k then (p.1 + 1, p.2) else (0, k)

/-- `SequenceMatcher.find_longest_match` over whole lists (junk-free): returns
`(i, j, k)`, the longest matching block, smallest `i` then smallest `j`. -/
def flm : List Nat → List Nat → Nat × Nat × Nat
  | [], _ => (0, 0, 0)
  | a :: as, b =>
    let p := bestRow (a :: as) b
    let q := flm as b
    if q.2.2 > p.2 then (q.1 + 1, q.2.1, q.2.2) else (0, p.1, p.2)

/-- Total size of the matching blocks of `get_matching_blocks` (fuel-indexed;
the fuel `|a| + |b| + 1` used by `mTotal` always suffices). -/
def mbTotal : Nat → List Nat → List Nat → Nat
  | 0, _, _ => 0
  | fuel + 1, a, b =>
    let p := flm a b
    if p.2.2 = 0 then 0
    else
      mbTotal fuel (a.take p.1) (b.take p.2.1) + p.2.2 +
        mbTotal fuel (a.drop (p.1 + p.2.2)) (b.drop (p.2.1 + p.2.2))

/-- `M`, the total matching-block size of `SequenceMatcher(None, a, b)`. -/
def mTotal (a b : List Nat) : Nat := mbTotal (a.length + b.length + 1) a b

/-- `ratio ≥ 0.6` as an exact rational comparison (`ratio = 2*M/T`; for `T = 0`
Python defines the ratio as `1.0`, and the comparison below then also holds). -/
def cutoffOK (M T : Nat) : Bool := 3 * T ≤ 10 * M

/-- Python `str` comparison (strict `<`): lexicographic on code points. -/
def strLt : List Nat → List Nat → Bool
  | _, [] => false
  | [], _ :: _ => true
  | a :: as, b :: bs => if a < b then true else if b < a then false else strLt as bs

/-- One step of the `get_close_matches(word, poss, n=1, cutoff=0.6)` selection:
keep the score-passing candidate that maximises the pair `(ratio, string)` in
Python tuple order (this is what `heapq.nlargest(1)` returns).  Scores `2*M/T`
are compared exactly by cross-multiplication. -/
def gcmStep (w : List Nat) (best : Option (Nat × Nat × String)) (x : String) :
    Option (Nat × Nat × String) :=
  let xc := codes x
  let M := mTotal xc w
  let T := xc.length + w.length
  if cutoffOK M T then
    match best with
    | none => some (M, T, x)
    | some (M', T', x') =>
      if M' * T < M * T' ∨ (M * T' = M' * T ∧ strLt (codes x') xc) then
        some (M, T, x)
      else some (M', T', x')
  else best

/-- `difflib.get_close_matches(word, poss, n=1, cutoff=0.6)`, returning the
single best match if any candidate passes the cutoff. -/
def get_close_matches1 (word : String) (poss : List String) : Option String :=
  (poss.foldl (gcmStep (codes word)) none).map (fun p => p.2.2)

/-- One iteration body of the `_match_sdgs` loop:
`if cands and cands[0] not in matched: matched.append(cands[0])`. -/
def stepOne (s : String) (matched : List String) : List String :=
  match get_close_matches1 s SDG_OPTIONS with
  | some c => if c ∈ matched then matched else matched ++ [c]
  | none => matched

/-- The loop of `_match_sdgs`, with the accumulated `matched` list; the loop
breaks as soon as `len(matched) >= 3`. -/
def matchGo : List String → List String → List String
  | [], matched => matched
  | s :: rest, matched =>
    let matched' := stepOne s matched
    if 3 ≤ matched'.length then matched' else matchGo rest matched'

/-- `_match_sdgs` from `src/app.py`. -/
def _match_sdgs (raw_list : List String) : List String := matchGo raw_list []

/-- The best canonical match of a candidate, as used inside `_match_sdgs`. -/
def bestOf (s : String) : Option String := get_close_matches1 s SDG_OPTIONS

/-- Invariant on the fold accumulator before the word itself is reached:
either no candidate passed yet, or the best one so far is a passing
possibility distinct from `w`, stored with its exact score data. -/
def preAcc (w : String) (acc : Option (Nat × Nat × String)) : Prop :=
  acc = none ∨ ∃ x', x' ≠ w ∧
    cutoffOK (mTotal (codes x') (codes w)) ((codes x').length + (codes w).length) = true ∧
    acc = some (mTotal (codes x') (codes w), (codes x').length + (codes w).length, x')

/-!
## Model of the Python `json` module

JSON values as produced by `json.loads`.  Python dicts are modelled as
association lists in parse order (the strings parsed here never contain
duplicate keys, so `dict(pairs)` agrees with the association list).
Non-integral numeric literals and the `NaN`/`Infinity` constants produce
Python floats; their IEEE value semantics is never needed by any claim, so
they are kept as their raw lexemes in the `float` constructor.
-/

inductive Json where
  | null
  | bool (b : Bool)
  | num (n : Int)
  | float (lex : List Nat)
  | str (cs : List Nat)
  | arr (xs : List Json)
  | obj (kvs : List (List Nat × Json))

/-- JSON whitespace (`' '`, `'\t'`, `'\n'`, `'\r'`). -/
def isWs (c : Nat) : Bool := c = 32 ∨ c = 9 ∨ c = 10 ∨ c = 13

/-- Skip leading JSON whitespace. -/
def skipWs : List Nat → List Nat
  | c :: cs => if isWs c then skipWs cs else c :: cs
  | [] => []

def isDigit (c : Nat) : Bool := 48 ≤ c ∧ c ≤ 57

/-- Value of a hex digit, if any (both cases accepted, as in `\uXXXX`). -/
def hexVal (c : Nat) : Option Nat :=
  if 48 ≤ c ∧ c ≤ 57 then some (c - 48)
  else if 65 ≤ c ∧ c ≤ 70 then some (c - 55)
  else if 97 ≤ c ∧ c ≤ 102 then some (c - 87)
  else none

/-- Four hex digits, as in a `\uXXXX` escape. -/
def decode4hex : List Nat → Option (Nat × List Nat)
  | h1 :: h2 :: h3 :: h4 :: rest =>
    match hexVal h1, hexVal h2, hexVal h3, hexVal h4 with
    | some v1, some v2, some v3, some v4 =>
      some ((((v1 * 16 + v2) * 16 + v3) * 16 + v4), rest)
    | _, _, _, _ => none
  | _ => none

/-- `py_scanstring` after the opening quote: returns the decoded code points
and the rest of the input.  Escapes and surrogate-pair recombination follow
the `json.decoder` scanner; literal control characters are rejected
(`strict=True`). -/
def pString : Nat → List Nat → Option (List Nat × List Nat)
  | 0, _ => none
  | _ + 1, [] => none
  | fuel + 1, c :: cs =>
    if c = 34 then some ([], cs)
    else if c = 92 then
      match cs with
      | [] => none
      | e :: cs' =>
        if e = 34 ∨ e = 92 ∨ e = 47 then
          (pString fuel cs').map (fun p => (e :: p.1, p.2))
        else if e = 98 then (pString fuel cs').map (fun p => (8 :: p.1, p.2))
        else if e = 102 then (pString fuel cs').map (fun p => (12 :: p.1, p.2))
        else if e = 110 then (pString fuel cs').map (fun p => (10 :: p.1, p.2))
        else if e = 114 then (pString fuel cs').map (fun p => (13 :: p.1, p.2))
        else if e = 116 then (pString fuel cs').map (fun p => (9 :: p.1, p.2))
        else if e = 117 then
          match decode4hex cs' with
          | none => none
          | some (u, cs2) =>
            if 0xD800 ≤ u ∧ u < 0xDC00 then
              match cs2 with
              | 92 :: 117 :: rest2 =>
                match decode4hex rest2 with
                | none => none
                | some (u2, cs3) =>
                  if 0xDC00 ≤ u2 ∧ u2 < 0xE000 then
                    (pString fuel cs3).map
                      (fun p => ((0x10000 + (u - 0xD800) * 0x400 + (u2 - 0xDC00)) :: p.1, p.2))
                  else (pString fuel cs2).map (fun p => (u :: p.1, p.2))
              | _ => (pString fuel cs2).map (fun p => (u :: p.1, p.2))
            else (pString fuel cs2).map (fun p => (u :: p.1, p.2))
        else none
    else if c < 32 then none
    else (pString fuel cs).map (fun p => (c :: p.1, p.2))

/-- Maximal digit prefix. -/
def takeDigits : List Nat → List Nat × List Nat
  | c :: cs =>
    if isDigit c then
      let p := takeDigits cs
      (c :: p.1, p.2)
    else ([], c :: cs)
  | [] => ([], [])

def digitsToNat (ds : List Nat) : Nat := ds.foldl (fun a c => a * 10 + (c - 48)) 0

/-- The optional `(\.\d+)?` group at the head of `r1`:
the consumed lexeme and the remaining input. -/
def fracPart (r1 : List Nat) : List Nat × List Nat :=
  match r1 with
  | 46 :: d :: ds =>
    if isDigit d then (46 :: (takeDigits (d :: ds)).1, (takeDigits (d :: ds)).2)
    else ([], r1)
  | _ => ([], r1)

/-- The optional `([eE][-+]?\d+)?` group at the head of `r2`. -/
def expPart (r2 : List Nat) : List Nat × List Nat :=
  match r2 with
  | e :: rest =>
    if e = 101 ∨ e = 69 then
      match rest with
      | sgn :: d :: ds =>
        if (sgn = 43 ∨ sgn = 45) ∧ isDigit d then
          (e :: sgn :: (takeDigits (d :: ds)).1, (takeDigits (d :: ds)).2)
        else if isDigit sgn then (e :: (takeDigits rest).1, (takeDigits rest).2)
        else ([], r2)
      | [d] => if isDigit d then ([e, d], []) else ([], r2)
      | [] => ([], r2)
    else ([], r2)
  | [] => ([], r2)

/-- The number regex of `json.scanner`:
`(-?(?:0|[1-9]\d*))(\.\d+)?([eE][-+]?\d+)?`; integers yield Python ints,
a present fraction or exponent yields a float (kept as its lexeme). -/
def pNumber (s : List Nat) : Option (Json × List Nat) :=
  let neg := s.head? = some 45
  let s1 := if neg then s.tail else s
  match s1 with
  | c :: cs =>
    if c = 48 ∨ (isDigit c ∧ c ≠ 48) then
      let ip : List Nat × List Nat := if c = 48 then ([48], cs) else takeDigits s1
      let frac := fracPart ip.2
      let expo := expPart frac.2
      if frac.1 = [] ∧ expo.1 = [] then
        some (.num (if neg then -(digitsToNat ip.1 : Int) else (digitsToNat ip.1 : Int)), ip.2)
      else
        some (.float ((if neg then [45] else []) ++ ip.1 ++ frac.1 ++ expo.1), expo.2)
    else none
  | [] => none

/-- Does `s` start with `p`? (The scanner's literal-prefix checks.) -/
def startsWith (p s : List Nat) : Bool :=
  match p, s with
  | [], _ => true
  | _ :: _, [] => false
  | a :: ps, b :: ss => a = b && startsWith ps ss

mutual

/-- `scan_once` of the Python scanner: parse one JSON value starting exactly
at the head of `s` (callers skip whitespace first). -/
def pValue : Nat → List Nat → Option (Json × List Nat)
  | 0, _ => none
  | _ + 1, [] => none
  | fuel + 1, c :: cs =>
    if c = 34 then (pString fuel cs).map (fun p => (.str p.1, p.2))
    else if c = 123 then pObject fuel cs
    else if c = 91 then pArray fuel cs
    else if startsWith (codes "null") (c :: cs) then some (.null, (c :: cs).drop 4)
    else if startsWith (codes "true") (c :: cs) then some (.bool true, (c :: cs).drop 4)
    else if startsWith (codes "false") (c :: cs) then some (.bool false, (c :: cs).drop 5)
    else
      match pNumber (c :: cs) with
      | some r => some r
      | none =>
        if startsWith (codes "NaN") (c :: cs) then
          some (.float (codes "NaN"), (c :: cs).drop 3)
        else if startsWith (codes "Infinity") (c :: cs) then
          some (.float (codes "Infinity"), (c :: cs).drop 8)
        else if startsWith (codes "-Infinity") (c :: cs) then
          some (.float (codes "-Infinity"), (c :: cs).drop 9)
        else none

/-- `JSONArray`, after the opening `[`. -/
def pArray : Nat → List Nat → Option (Json × List Nat)
  | 0, _ => none
  | fuel + 1, s =>
    match skipWs s with
    | 93 :: rest => some (.arr [], rest)
    | s1 => (pArrayItems fuel s1).map (fun p => (.arr p.1, p.2))

/-- The element loop of `JSONArray` (at least one element). -/
def pArrayItems : Nat → List Nat → Option (List Json × List Nat)
  | 0, _ => none
  | fuel + 1, s =>
    match pValue fuel s with
    | none => none
    | some (v, r) =>
      match skipWs r with
      | 93 :: rest => some ([v], rest)
      | 44 :: rest =>
        (pArrayItems fuel (skipWs rest)).map (fun p => (v :: p.1, p.2))
      | _ => none

/-- `JSONObject`, after the opening `{`. -/
def pObject : Nat → List Nat → Option (Json × List Nat)
  | 0, _ => none
  | fuel + 1, s =>
    match skipWs s with
    | 125 :: rest => some (.obj [], rest)
    | s1 => (pMembers fuel s1).map (fun p => (.obj p.1, p.2))

/-- The member loop of `JSONObject` (at least one `"key": value` pair). -/
def pMembers : Nat → List Nat → Option (List (List Nat × Json) × List Nat)
  | 0, _ => none
  | fuel + 1, s =>
    match s with
    | 34 :: s1 =>
      match pString fuel s1 with
      | none => none
      | some (key, r1) =>
        match skipWs r1 with
        | 58 :: r2 =>
          match pValue fuel (skipWs r2) with
          | none => none
          | some (v, r3) =>
            match skipWs r3 with
            | 125 :: rest => some ([(key, v)], rest)
            | 44 :: rest =>
              match skipWs rest with
              | 34 :: _ => (pMembers fuel (skipWs rest)).map (fun p => ((key, v) :: p.1, p.2))
              | _ => none
            | _ => none
        | _ => none
    | _ => none

end

/-- `json.loads`: parse one value, allowing surrounding whitespace only.
The scanner itself recurses without bound; the fuel `3 * s.length + 3` only
discharges termination and is never exhausted: every fueled call consumes
fuel 1 and can be charged to a distinct character of the input — an opening
`[` to its `pValue`/`pArray`/`pArrayItems` entries (three charges, the worst
case), an opening `\x7b` likewise, a string character to its `pString` step,
a comma to its loop iteration — so at most `3 * s.length + 1` calls ever
run. -/
def json_loads (s : List Nat) : Option Json :=
  match pValue (3 * s.length + 3) (skipWs s) with
  | some (v, rest) => if skipWs rest = [] then some v else none
  | none => none

/-- Index of the first occurrence of code `c` (Python `str.find`, on success). -/
def findIdx (c : Nat) : List Nat → Nat
  | [] => 0
  | x :: xs => if x = c then 0 else findIdx c xs + 1

/-- Index of the last occurrence of code `c` (Python `str.rfind`, on success). -/
def rfindIdx (c : Nat) (s : List Nat) : Nat :=
  s.length - 1 - findIdx c s.reverse

/-- `_parse_json_from_string` from `src/app.py`: strict parse of the whole
payload; on failure, strict parse of the slice from the first `{` to the last
`}` (if both are present); on any remaining failure, the empty dict. -/
def _parse_json_from_string (payload : List Nat) : Json :=
  match json_loads payload with
  | some v => v
  | none =>
    if 123 ∈ payload ∧ 125 ∈ payload then
      let snippet := (payload.take (rfindIdx 125 payload + 1)).drop (findIdx 123 payload)
      match json_loads snippet with
      | some v => v
      | none => .obj []
    else .obj []

/-!
## Records and the model of `json.dumps` on them

The schema's value shapes are strings, integers and lists of strings.
`json.dumps` is modelled with its defaults: `ensure_ascii=True` and item/key
separators `", "` and `": "`.  Strings are sequences of Unicode scalar values.
-/

/-- A schema-shaped field value: string, numeric (integer), or list of strings. -/
inductive FieldVal where
  | s (cs : List Nat)
  | int (n : Int)
  | strs (ss : List (List Nat))

/-- Decimal digits of a natural number, as code points (Python `repr`). -/
def natDigits (n : Nat) : List Nat :=
  if h : n < 10 then [48 + n]
  else natDigits (n / 10) ++ [48 + n % 10]
termination_by n
decreasing_by exact Nat.div_lt_self (by omega) (by omega)

/-- Lower-case hex digit of a value below 16. -/
def hexDigit (n : Nat) : Nat := if n < 10 then 48 + n else 87 + n

/-- Four lower-case hex digits (`'%04x'`). -/
def hex4 (n : Nat) : List Nat :=
  [hexDigit (n / 4096 % 16), hexDigit (n / 256 % 16), hexDigit (n / 16 % 16), hexDigit (n % 16)]

/-- `py_encode_basestring_ascii` on one code point: the two-character escapes,
printable ASCII verbatim, `\uXXXX` for everything else, with a surrogate pair
for code points above `0xFFFF`. -/
def escChar (c : Nat) : List Nat :=
  if c = 34 then [92, 34]
  else if c = 92 then [92, 92]
  else if c = 8 then [92, 98]
  else if c = 9 then [92, 116]
  else if c = 10 then [92, 110]
  else if c = 12 then [92, 102]
  else if c = 13 then [92, 114]
  else if 32 ≤ c ∧ c ≤ 126 then [c]
  else if c < 0x10000 then 92 :: 117 :: hex4 c
  else
    (92 :: 117 :: hex4 (0xD800 + (c - 0x10000) / 0x400)) ++
      (92 :: 117 :: hex4 (0xDC00 + (c - 0x10000) % 0x400))

def escString (s : List Nat) : List Nat := s.flatMap escChar

/-- A serialized JSON string literal. -/
def dumpStr (s : List Nat) : List Nat := 34 :: escString s ++ [34]

/-- A serialized integer. -/
def dumpInt (n : Int) : List Nat :=
  if n < 0 then 45 :: natDigits n.natAbs else natDigits n.toNat

/-- Join serialized items with the default item separator `", "`. -/
def joinSep : List (List Nat) → List Nat
  | [] => []
  | [x] => x
  | x :: y :: rest => x ++ 44 :: 32 :: joinSep (y :: rest)

def dumpField : FieldVal → List Nat
  | .s cs => dumpStr cs
  | .int n => dumpInt n
  | .strs ss => 91 :: joinSep (ss.map dumpStr) ++ [93]

/-- One serialized `"key": value` member (key separator `": "`). -/
def dumpMember (kv : List Nat × FieldVal) : List Nat :=
  dumpStr kv.1 ++ 58 :: 32 :: dumpField kv.2

/-- `json.dumps` (defaults) of a record whose values have the schema shapes. -/
def json_dumps_record (r : List (List Nat × FieldVal)) : List Nat :=
  123 :: joinSep (r.map dumpMember) ++ [125]

def fieldToJson : FieldVal → Json
  | .s cs => .str cs
  | .int n => .num n
  | .strs ss => .arr (ss.map Json.str)

/-- The parsed-JSON view of a record. -/
def recordToJson (r : List (List Nat × FieldVal)) : Json :=
  .obj (r.map (fun kv => (kv.1, fieldToJson kv.2)))

/-- A Unicode scalar value: what one position of a Python text string holds. -/
def isScalar (c : Nat) : Prop := c < 0x110000 ∧ ¬ (0xD800 ≤ c ∧ c ≤ 0xDFFF)

/-- Well-formed record: every key and string value consists of scalar values. -/
def recordWF (r : List (List Nat × FieldVal)) : Prop :=
  ∀ kv ∈ r, (∀ c ∈ kv.1, isScalar c) ∧
    (match kv.2 with
     | .s cs => ∀ c ∈ cs, isScalar c
     | .int _ => True
     | .strs ss => ∀ s ∈ ss, ∀ c ∈ s, isScalar c)

/-!
## The `setdefault`-based Merge/Defaulting step
-/

/-- First-match association lookup: Python `dict` access on parse-ordered
pairs (the dicts that arise never have duplicate keys). -/
def alookup : List (List Nat × Json) → List Nat → Option Json
  | [], _ => none
  | kv :: rest, key => if kv.1 = key then some kv.2 else alookup rest key

def hasKey (m : List (List Nat × Json)) (k : List Nat) : Bool := (alookup m k).isSome

/-- `dict.setdefault(k, v)`: insert `(k, v)` at the end iff `k` is absent. -/
def setdefault (m : List (List Nat × Json)) (k : List Nat) (v : Json) :
    List (List Nat × Json) :=
  if hasKey m k then m else m ++ [(k, v)]

def unknownJson : Json := .str (codes "Unknown")

/-- The defaulting loop `for k in fields: summary.setdefault(k, "Unknown")`. -/
def defaultsFold (fs : List String) (m : List (List Nat × Json)) :
    List (List Nat × Json) :=
  fs.foldl (fun acc f => setdefault acc (codes f) unknownJson) m

/-- The Merge/Defaulting step of `summarize_project_with_gpt`:
`for k in AI_FIELDS: summary.setdefault(k, "Unknown")`. -/
def applyDefaults (m : List (List Nat × Json)) : List (List Nat × Json) :=
  defaultsFold AI_FIELDS m

/-- `str.strip()` (the whitespace actually arising is ASCII). -/
def isStripWs (c : Nat) : Bool := c = 32 ∨ (9 ≤ c ∧ c ≤ 13)

def pyStrip (s : List Nat) : List Nat :=
  ((s.dropWhile isStripWs).reverse.dropWhile isStripWs).reverse

/-- `summarize_project_with_gpt` from `src/app.py`, with the OpenAI call
modelled by its outcome: `.error e` = `openai.ChatCompletion.create` raised
(network, auth, quota, timeout, with message `e`), handled by the `except`
branch, which calls `st.error` and sets `summary = {}`; `.ok content` = the
reply text `resp.choices[0].message.content`.  The result pair records
whether `st.error` was called, and the final summary dict.  The outer
`Except Unit` models an exception escaping to the caller: that happens only
when the parsed reply is not a dict, since `summary.setdefault` (outside the
`try`) then raises `AttributeError`. -/
def summarize_project_with_gpt (backend : Except (List Nat) (List Nat)) :
    Except Unit (Bool × List (List Nat × Json)) :=
  match backend with
  | .error _ => .ok (true, applyDefaults [])
  | .ok content =>
    match _parse_json_from_string (pyStrip content) with
    | .obj kvs => .ok (false, applyDefaults kvs)
    | _ => .error ()

/-- `extract_text_from_file` from `src/app.py`, with the four format readers
(PyMuPDF, python-docx, python-pptx, `pandas.read_excel(...).to_csv`) modelled
by their outcomes: `.ok text` = the library produced `text`, `.error e` = the
library raised `e`.  `ext` is `Path(path).suffix.lower()`.  Only the
spreadsheet branch has a `try/except` around the reader. -/
def extract_text_from_file (ext : String)
    (pdf docxReader pptxReader excelReader : Except (List Nat) (List Nat)) :
    Except (List Nat) (List Nat) :=
  if ext = ".pdf" then pdf
  else if ext = ".docx" then docxReader
  else if ext = ".pptx" then pptxReader
  else if ext = ".xls" ∨ ext = ".xlsx" then
    match excelReader with
    | .ok t => .ok t
    | .error _ => .ok []
  else .ok []

/-- What may legally follow a serialized number in the dumps output: nothing,
or a character that neither extends the integer part nor starts a fraction or
exponent (in practice `','`, `'}'` or `']'`). -/
def numBoundary (rest : List Nat) : Prop :=
  ∀ r, rest.head? = some r → isDigit r = false ∧ r ≠ 46 ∧ r ≠ 101 ∧ r ≠ 69

/-! ### Structural lemmas about the matcher model -/

theorem commonRun_le_left : ∀ a b : List Nat, commonRun a b ≤ a.length := by
  intro a
  induction a with
  | nil => intro b; cases b <;> simp [commonRun]
  | cons x as ih =>
    intro b
    cases b with
    | nil => simp [commonRun]
    | cons y bs =>
      simp only [commonRun]
      split
      · simpa using Nat.succ_le_succ (ih bs)
      · simp

theorem commonRun_le_right : ∀ a b : List Nat, commonRun a b ≤ b.length := by
  intro a
  induction a with
  | nil => intro b; cases b <;> simp [commonRun]
  | cons x as ih =>
    intro b
    cases b with
    | nil => simp [commonRun]
    | cons y bs =>
      simp only [commonRun]
      split
      · simpa using Nat.succ_le_succ (ih bs)
      · simp

theorem commonRun_self : ∀ a : List Nat, commonRun a a = a.length := by
  intro a
  induction a with
  | nil => simp [commonRun]
  | cons x as ih => simp [commonRun, ih]

theorem commonRun_take : ∀ a b : List Nat,
    a.take (commonRun a b) = b.take (commonRun a b) := by
  intro a
  induction a with
  | nil => intro b; cases b <;> simp [commonRun]
  | cons x as ih =>
    intro b
    cases b with
    | nil => simp [commonRun]
    | cons y bs =>
      simp only [commonRun]
      split
      · next h => simp [h, ih bs]
      · simp

theorem bestRow_spec (sa : List Nat) : ∀ b : List Nat,
    (bestRow sa b).1 + (bestRow sa b).2 ≤ b.length ∧
    (bestRow sa b).2 ≤ sa.length ∧
    commonRun sa (b.drop (bestRow sa b).1) = (bestRow sa b).2 := by
  intro b
  induction b with
  | nil =>
    refine ⟨by simp [bestRow], by simp [bestRow], ?_⟩
    simp only [bestRow, List.drop_nil]
    cases sa <;> simp [commonRun]
  | cons y bs ih =>
    simp only [bestRow]
    split
    · refine ⟨?_, ih.2.1, ?_⟩
      · simpa [Nat.add_right_comm] using Nat.add_le_add_right ih.1 1
      · simpa using ih.2.2
    · next h =>
      exact ⟨by simpa using commonRun_le_right sa (y :: bs), commonRun_le_left sa (y :: bs), rfl⟩

theorem bestRow_self : ∀ a : List Nat, bestRow a a = (0, a.length) := by
  intro a
  cases a with
  | nil => simp [bestRow]
  | cons x as =>
    have hs := (bestRow_spec (x :: as) as).1
    rcases hp : bestRow (x :: as) as with ⟨pj, pk⟩
    rw [hp] at hs
    dsimp only at hs
    simp only [bestRow, hp, commonRun_self]
    have h2 : ¬ (pk > (x :: as).length) := by simp only [List.length_cons]; omega
    rw [if_neg h2]

theorem flm_spec : ∀ a b : List Nat,
    (flm a b).1 + (flm a b).2.2 ≤ a.length ∧
    (flm a b).2.1 + (flm a b).2.2 ≤ b.length ∧
    commonRun (a.drop (flm a b).1) (b.drop (flm a b).2.1) = (flm a b).2.2 := by
  intro a
  induction a with
  | nil =>
    intro b
    refine ⟨by simp [flm], by simp [flm], ?_⟩
    simp only [flm, List.drop_nil]
    cases b <;> simp [commonRun]
  | cons x as ih =>
    intro b
    have ihb := ih b
    have hs := bestRow_spec (x :: as) b
    rcases hq : flm as b with ⟨qi, qj, qk⟩
    rcases hp : bestRow (x :: as) b with ⟨pj, pk⟩
    rw [hq] at ihb
    rw [hp] at hs
    dsimp only at ihb hs
    simp only [flm, hq, hp]
    split
    · refine ⟨?_, ?_, ?_⟩
      · simp only [List.length_cons]; omega
      · exact ihb.2.1
      · simpa using ihb.2.2
    · next h =>
      refine ⟨?_, ?_, ?_⟩
      · simp only [List.length_cons] at hs ⊢; omega
      · exact hs.1
      · simpa using hs.2.2

theorem flm_self : ∀ a : List Nat, flm a a = (0, 0, a.length) := by
  intro a
  cases a with
  | nil => simp [flm]
  | cons x as =>
    have h1 := (flm_spec as (x :: as)).1
    rcases hq : flm as (x :: as) with ⟨qi, qj, qk⟩
    rw [hq] at h1
    dsimp only at h1
    simp only [flm, hq, bestRow_self]
    have h2 : ¬ (qk > (x :: as).length) := by
      simp only [List.length_cons]
      omega
    rw [if_neg h2]

theorem mbTotal_zero_nil : ∀ (fuel : Nat) (b : List Nat), mbTotal fuel [] b = 0 := by
  intro fuel b
  cases fuel with
  | zero => simp [mbTotal]
  | succ f => simp [mbTotal, flm]

theorem mbTotal_le : ∀ (fuel : Nat) (a b : List Nat),
    mbTotal fuel a b ≤ a.length ∧ mbTotal fuel a b ≤ b.length := by
  intro fuel
  induction fuel with
  | zero => intro a b; simp [mbTotal]
  | succ f ih =>
    intro a b
    have hs := flm_spec a b
    rcases hq : flm a b with ⟨i, j, k⟩
    rw [hq] at hs
    dsimp only at hs
    simp only [mbTotal, hq]
    split
    · simp
    · next hk =>
      have h1 := ih (a.take i) (b.take j)
      have h2 := ih (a.drop (i + k)) (b.drop (j + k))
      have hmi : min i a.length = i := Nat.min_eq_left (by omega)
      have hmj : min j b.length = j := Nat.min_eq_left (by omega)
      simp only [List.length_take, List.length_drop, hmi, hmj] at h1 h2
      omega

theorem mbTotal_self : ∀ (fuel : Nat) (a : List Nat), 1 ≤ fuel → mbTotal fuel a a = a.length := by
  intro fuel a hf
  cases fuel with
  | zero => omega
  | succ f =>
    cases a with
    | nil => simp [mbTotal, flm]
    | cons x as =>
      simp only [mbTotal, flm_self]
      have hne : ¬ ((x :: as).length = 0) := by simp
      simp only [hne, if_false]
      simp [mbTotal_zero_nil]

theorem mTotal_self (a : List Nat) : mTotal a a = a.length :=
  mbTotal_self _ _ (by omega)

theorem two_mTotal_le (a b : List Nat) : 2 * mTotal a b ≤ a.length + b.length := by
  have h := mbTotal_le (a.length + b.length + 1) a b
  simp only [mTotal]
  omega

theorem mbTotal_eq_of_total : ∀ (fuel : Nat) (a b : List Nat),
    2 * mbTotal fuel a b = a.length + b.length → a = b := by
  intro fuel
  induction fuel with
  | zero =>
    intro a b h
    simp only [mbTotal, Nat.mul_zero] at h
    have ha : a.length = 0 := by omega
    have hb : b.length = 0 := by omega
    rw [List.length_eq_zero] at ha hb
    rw [ha, hb]
  | succ f ih =>
    intro a b h
    have hs := flm_spec a b
    rcases hq : flm a b with ⟨i, j, k⟩
    rw [hq] at hs
    dsimp only at hs
    simp only [mbTotal, hq] at h
    split at h
    · have ha : a.length = 0 := by omega
      have hb : b.length = 0 := by omega
      rw [List.length_eq_zero] at ha hb
      rw [ha, hb]
    · next hk =>
      have hmi : min i a.length = i := Nat.min_eq_left (by omega)
      have hmj : min j b.length = j := Nat.min_eq_left (by omega)
      have hL := mbTotal_le f (a.take i) (b.take j)
      have hR := mbTotal_le f (a.drop (i + k)) (b.drop (j + k))
      simp only [List.length_take, List.length_drop, hmi, hmj] at hL hR
      have hLeq : 2 * mbTotal f (a.take i) (b.take j) = (a.take i).length + (b.take j).length := by
        simp only [List.length_take, hmi, hmj]
        omega
      have hReq : 2 * mbTotal f (a.drop (i + k)) (b.drop (j + k)) =
          (a.drop (i + k)).length + (b.drop (j + k)).length := by
        simp only [List.length_drop]
        omega
      have hLeft := ih _ _ hLeq
      have hRight := ih _ _ hReq
      have hMid : (a.drop i).take k = (b.drop j).take k := by
        have hcr := commonRun_take (a.drop i) (b.drop j)
        rw [hs.2.2] at hcr
        exact hcr
      have ha : a = a.take i ++ ((a.drop i).take k ++ (a.drop i).drop k) := by
        rw [List.take_append_drop, List.take_append_drop]
      have hb2 : b = b.take j ++ ((b.drop j).take k ++ (b.drop j).drop k) := by
        rw [List.take_append_drop, List.take_append_drop]
      have hda : (a.drop i).drop k = a.drop (i + k) := by
        rw [List.drop_drop, Nat.add_comm]
      have hdb : (b.drop j).drop k = b.drop (j + k) := by
        rw [List.drop_drop, Nat.add_comm]
      rw [ha, hb2, hLeft, hMid, hda, hdb, hRight]

theorem mTotal_eq_of_total (a b : List Nat)
    (h : 2 * mTotal a b = a.length + b.length) : a = b :=
  mbTotal_eq_of_total _ a b h

theorem mTotal_le_right (a b : List Nat) : mTotal a b ≤ b.length :=
  (mbTotal_le _ a b).2

theorem two_mTotal_lt (a b : List Nat) (h : a ≠ b) :
    2 * mTotal a b < a.length + b.length :=
  lt_of_le_of_ne (two_mTotal_le a b) (fun he => h (mTotal_eq_of_total a b he))

theorem codes_inj {x y : String} (h : codes x = codes y) : x = y := by
  have hinj : Function.Injective Char.toNat := fun a b hab => by
    have := congrArg Char.ofNat hab
    rwa [Char.ofNat_toNat, Char.ofNat_toNat] at this
  have hd : x.data = y.data := List.map_injective_iff.mpr hinj h
  cases x; cases y; exact congrArg String.mk hd

/-! ### Lemmas about the `get_close_matches(·, ·, n=1, cutoff=0.6)` selection -/

theorem gcmStep_cases (w : List Nat) (acc : Option (Nat × Nat × String)) (x : String) :
    gcmStep w acc x = acc ∨
    gcmStep w acc x = some (mTotal (codes x) w, (codes x).length + w.length, x) := by
  cases acc with
  | none =>
    simp only [gcmStep]
    split
    · right; rfl
    · left; rfl
  | some p =>
    simp only [gcmStep]
    split
    · split
      · right; rfl
      · left; rfl
    · left; rfl

theorem gcm_fold_mem (w : List Nat) :
    ∀ (l : List String) (acc : Option (Nat × Nat × String)) (r : Nat × Nat × String),
      l.foldl (gcmStep w) acc = some r → acc = some r ∨ r.2.2 ∈ l := by
  intro l
  induction l with
  | nil => intro acc r h; exact Or.inl h
  | cons y l ih =>
    intro acc r h
    rw [List.foldl_cons] at h
    rcases ih (gcmStep w acc y) r h with h1 | h1
    · rcases gcmStep_cases w acc y with h2 | h2
      · exact Or.inl (h2 ▸ h1)
      · rw [h2] at h1
        have : r.2.2 = y := by
          have := (Option.some.injEq _ _).mp h1.symm
          rw [this]
        exact Or.inr (by simp [this])
    · exact Or.inr (List.mem_cons_of_mem _ h1)

theorem get_close_matches1_mem {word c : String} {poss : List String}
    (h : get_close_matches1 word poss = some c) : c ∈ poss := by
  simp only [get_close_matches1, Option.map_eq_some'] at h
  rcases h with ⟨r, hr, hc⟩
  rcases gcm_fold_mem (codes word) poss none r hr with h1 | h1
  · exact absurd h1 (by simp)
  · exact hc ▸ h1


theorem preAcc_step {w x : String} {acc : Option (Nat × Nat × String)}
    (hx : x ≠ w) (h : preAcc w acc) : preAcc w (gcmStep (codes w) acc x) := by
  cases acc with
  | none =>
    simp only [gcmStep]
    split
    · next hc => exact Or.inr ⟨x, hx, hc, rfl⟩
    · exact Or.inl rfl
  | some p =>
    simp only [gcmStep]
    split
    · next hc =>
      split
      · exact Or.inr ⟨x, hx, hc, rfl⟩
      · exact h
    · exact h

theorem preAcc_fold {w : String} (l : List String) (hl : ∀ x ∈ l, x ≠ w)
    {acc : Option (Nat × Nat × String)} (h : preAcc w acc) :
    preAcc w (l.foldl (gcmStep (codes w)) acc) := by
  induction l generalizing acc with
  | nil => exact h
  | cons y l ih =>
    rw [List.foldl_cons]
    exact ih (fun x hx => hl x (List.mem_cons_of_mem _ hx))
      (preAcc_step (hl y (List.mem_cons_self _ _)) h)

/-- Processing `w` itself from a `preAcc` state yields the exact-match entry:
its ratio is `1.0`, which beats every other possibility strictly. -/
theorem gcmStep_self {w : String} {acc : Option (Nat × Nat × String)}
    (h : preAcc w acc) :
    gcmStep (codes w) acc w =
      some ((codes w).length, (codes w).length + (codes w).length, w) := by
  have hM : mTotal (codes w) (codes w) = (codes w).length := mTotal_self _
  have hcut : cutoffOK (mTotal (codes w) (codes w))
      ((codes w).length + (codes w).length) = true := by
    simp only [cutoffOK, hM, decide_eq_true_eq]
    omega
  cases acc with
  | none =>
    simp only [gcmStep]
    rw [if_pos hcut, hM]
  | some p =>
    rcases h with h | ⟨x', hx', hcx', hp⟩
    · exact absurd h (by simp)
    · have hp' : p = (mTotal (codes x') (codes w),
          (codes x').length + (codes w).length, x') := Option.some.inj hp
      subst hp'
      have hne : codes x' ≠ codes w := fun he => hx' (codes_inj he)
      have hstrict : 2 * mTotal (codes x') (codes w) < (codes x').length + (codes w).length :=
        two_mTotal_lt _ _ hne
      by_cases hL : (codes w).length = 0
      · -- the word is empty: nothing else can pass the cutoff, contradiction
        exfalso
        have hMle : mTotal (codes x') (codes w) ≤ (codes w).length := mTotal_le_right _ _
        simp only [cutoffOK, decide_eq_true_eq] at hcx'
        have hx0 : (codes x').length = 0 := by omega
        exact hne (by rw [List.length_eq_zero.mp hx0, List.length_eq_zero.mp hL])
      · have hrepl : mTotal (codes x') (codes w) * ((codes w).length + (codes w).length) <
            mTotal (codes w) (codes w) * ((codes x').length + (codes w).length) := by
          rw [hM]
          have h1 : mTotal (codes x') (codes w) * ((codes w).length + (codes w).length) =
              (2 * mTotal (codes x') (codes w)) * (codes w).length := by ring
          have h2 : (codes w).length * ((codes x').length + (codes w).length) =
              ((codes x').length + (codes w).length) * (codes w).length := by ring
          rw [h1, h2]
          exact (Nat.mul_lt_mul_right (Nat.pos_of_ne_zero hL)).mpr hstrict
        simp only [gcmStep]
        rw [if_pos hcut, if_pos (Or.inl hrepl), hM]

/-- Once the exact match is the best entry, later candidates never displace it. -/
theorem goodAcc_step {w x : String} (hx : x ≠ w) :
    gcmStep (codes w)
        (some ((codes w).length, (codes w).length + (codes w).length, w)) x =
      some ((codes w).length, (codes w).length + (codes w).length, w) := by
  have hne : codes x ≠ codes w := fun he => hx (codes_inj he)
  have hstrict : 2 * mTotal (codes x) (codes w) < (codes x).length + (codes w).length :=
    two_mTotal_lt _ _ hne
  simp only [gcmStep]
  split
  · next hc =>
    by_cases hL : (codes w).length = 0
    · exfalso
      have hMle : mTotal (codes x) (codes w) ≤ (codes w).length := mTotal_le_right _ _
      simp only [cutoffOK, decide_eq_true_eq] at hc
      have hx0 : (codes x).length = 0 := by omega
      exact hne (by rw [List.length_eq_zero.mp hx0, List.length_eq_zero.mp hL])
    · have hAB : ¬ ((codes w).length * ((codes x).length + (codes w).length) <
            mTotal (codes x) (codes w) * ((codes w).length + (codes w).length) ∨
          (mTotal (codes x) (codes w) * ((codes w).length + (codes w).length) =
            (codes w).length * ((codes x).length + (codes w).length) ∧
            strLt (codes w) (codes x) = true)) := by
        have h1 : (codes w).length * ((codes x).length + (codes w).length) =
            ((codes x).length + (codes w).length) * (codes w).length := by ring
        have h2 : mTotal (codes x) (codes w) * ((codes w).length + (codes w).length) =
            (2 * mTotal (codes x) (codes w)) * (codes w).length := by ring
        rintro (hlt | ⟨heq, _⟩)
        · rw [h1, h2] at hlt
          have := lt_of_mul_lt_mul_right hlt (Nat.zero_le _)
          omega
        · rw [h1, h2] at heq
          have := Nat.eq_of_mul_eq_mul_right (Nat.pos_of_ne_zero hL) heq
          omega
      rw [if_neg hAB]
  · rfl

theorem goodAcc_fold {w : String} (l : List String) (hl : ∀ x ∈ l, x ≠ w) :
    l.foldl (gcmStep (codes w))
        (some ((codes w).length, (codes w).length + (codes w).length, w)) =
      some ((codes w).length, (codes w).length + (codes w).length, w) := by
  induction l with
  | nil => rfl
  | cons y l ih =>
    rw [List.foldl_cons, goodAcc_step (hl y (List.mem_cons_self _ _))]
    exact ih fun x hx => hl x (List.mem_cons_of_mem _ hx)

/-- An exact canonical label always wins the `n=1, cutoff=0.6` selection over a
duplicate-free vocabulary: its ratio is `1.0` and every other label scores
strictly below `1.0`. -/
theorem get_close_matches1_self {w : String} {poss : List String}
    (hw : w ∈ poss) (hnd : poss.Nodup) :
    get_close_matches1 w poss = some w := by
  obtain ⟨s, t, rfl⟩ := List.append_of_mem hw
  rw [List.nodup_append] at hnd
  have hws : ∀ x ∈ s, x ≠ w := fun x hx he =>
    hnd.2.2 hx (he ▸ List.mem_cons_self w t)
  have hwt : ∀ x ∈ t, x ≠ w := fun x hx he =>
    (List.nodup_cons.mp hnd.2.1).1 (he ▸ hx)
  have hpre : preAcc w (s.foldl (gcmStep (codes w)) none) :=
    preAcc_fold s hws (Or.inl rfl)
  simp only [get_close_matches1, List.foldl_append, List.foldl_cons]
  rw [gcmStep_self hpre, goodAcc_fold t hwt]
  rfl

/-! ### Lemmas about the `_match_sdgs` loop -/

theorem stepOne_subset (s : String) (m : List String) : ∀ x ∈ m, x ∈ stepOne s m := by
  intro x hx
  simp only [stepOne]
  split
  · split
    · exact hx
    · exact List.mem_append_left _ hx
  · exact hx

theorem stepOne_len (s : String) (m : List String) :
    m.length ≤ (stepOne s m).length ∧ (stepOne s m).length ≤ m.length + 1 := by
  simp only [stepOne]
  split
  · split
    · omega
    · simp
  · omega

theorem stepOne_nodup (s : String) (m : List String) (h : m.Nodup) :
    (stepOne s m).Nodup := by
  simp only [stepOne]
  split
  · split
    · exact h
    · rename_i hc
      rw [List.nodup_append]
      exact ⟨h, List.nodup_singleton _, by simpa using hc⟩
  · exact h

theorem stepOne_mem_elim (s : String) (m : List String) {x : String}
    (hx : x ∈ stepOne s m) :
    x ∈ m ∨ get_close_matches1 s SDG_OPTIONS = some x := by
  revert hx
  simp only [stepOne]
  split
  · next c hc =>
    split
    · exact fun hx => Or.inl hx
    · intro hx
      rcases List.mem_append.mp hx with h | h
      · exact Or.inl h
      · simp only [List.mem_singleton] at h
        exact Or.inr (h ▸ hc)
  · exact fun hx => Or.inl hx

theorem matchGo_mem : ∀ (l : List String) (m : List String) (x : String),
    x ∈ m → x ∈ matchGo l m := by
  intro l
  induction l with
  | nil => intro m x hx; exact hx
  | cons s l ih =>
    intro m x hx
    simp only [matchGo]
    split
    · exact stepOne_subset s m x hx
    · exact ih _ x (stepOne_subset s m x hx)

theorem matchGo_len_le : ∀ (l : List String) (m : List String),
    m.length < 3 → (matchGo l m).length ≤ 3 := by
  intro l
  induction l with
  | nil => intro m hm; simp only [matchGo]; omega
  | cons s l ih =>
    intro m hm
    have hs := stepOne_len s m
    simp only [matchGo]
    split
    · omega
    · next h3 => exact ih _ (by omega)

theorem matchGo_nodup : ∀ (l : List String) (m : List String),
    m.Nodup → (matchGo l m).Nodup := by
  intro l
  induction l with
  | nil => intro m hm; exact hm
  | cons s l ih =>
    intro m hm
    simp only [matchGo]
    split
    · exact stepOne_nodup s m hm
    · exact ih _ (stepOne_nodup s m hm)

theorem matchGo_vocab : ∀ (l : List String) (m : List String),
    (∀ x ∈ m, x ∈ SDG_OPTIONS) → ∀ x ∈ matchGo l m, x ∈ SDG_OPTIONS := by
  intro l
  induction l with
  | nil => intro m hm; exact hm
  | cons s l ih =>
    intro m hm
    have hm' : ∀ x ∈ stepOne s m, x ∈ SDG_OPTIONS := by
      intro x hx
      rcases stepOne_mem_elim s m hx with h | h
      · exact hm x h
      · exact get_close_matches1_mem h
    simp only [matchGo]
    split
    · exact hm'
    · exact ih _ hm'

theorem matchGo_sublist : ∀ (l : List String) (m : List String),
    ∃ extra, matchGo l m = m ++ extra ∧ extra.Sublist (l.filterMap bestOf) := by
  intro l
  induction l with
  | nil => intro m; exact ⟨[], by simp [matchGo]⟩
  | cons s l ih =>
    intro m
    rcases hb : get_close_matches1 s SDG_OPTIONS with _ | c
    · have hbs : bestOf s = none := hb
      simp only [matchGo, stepOne, hb, List.filterMap_cons, hbs]
      split
      · exact ⟨[], by simp⟩
      · exact ih m
    · have hbs : bestOf s = some c := hb
      simp only [matchGo, stepOne, hb, List.filterMap_cons, hbs]
      by_cases hc : c ∈ m
      · simp only [if_pos hc]
        split
        · exact ⟨[], by simp⟩
        · rcases ih m with ⟨extra, he, hsub⟩
          exact ⟨extra, he, hsub.trans (List.sublist_cons_self _ _)⟩
      · simp only [if_neg hc]
        split
        · exact ⟨[c], rfl, by simp⟩
        · rcases ih (m ++ [c]) with ⟨extra, he, hsub⟩
          refine ⟨c :: extra, by simpa using he, ?_⟩
          exact List.Sublist.cons₂ _ hsub

theorem matchGo_break (l1 : List String) :
    ∀ (l2 : List String) (m : List String), (matchGo l1 m).length < 3 →
      matchGo (l1 ++ l2) m = matchGo l2 (matchGo l1 m) := by
  induction l1 with
  | nil => intro l2 m _; rfl
  | cons s l1 ih =>
    intro l2 m hlen
    simp only [matchGo] at hlen ⊢
    split
    · next h3 =>
      rw [if_pos h3] at hlen
      omega
    · next h3 =>
      rw [if_neg h3] at hlen
      exact ih l2 _ hlen

theorem sdg_options_nodup : SDG_OPTIONS.Nodup := by decide


/-! ### Lemmas about association lookup and the defaulting fold -/

theorem alookup_append_some : ∀ (m1 m2 : List (List Nat × Json)) (k : List Nat) (v : Json),
    alookup m1 k = some v → alookup (m1 ++ m2) k = some v := by
  intro m1
  induction m1 with
  | nil => intro m2 k v h; simp [alookup] at h
  | cons kv rest ih =>
    intro m2 k v h
    simp only [alookup, List.cons_append] at h ⊢
    by_cases hk : kv.1 = k
    · rw [if_pos hk] at h ⊢; exact h
    · rw [if_neg hk] at h ⊢
      exact ih m2 k v h

theorem alookup_append_none : ∀ (m1 m2 : List (List Nat × Json)) (k : List Nat),
    alookup m1 k = none → alookup (m1 ++ m2) k = alookup m2 k := by
  intro m1
  induction m1 with
  | nil => intro m2 k _; rfl
  | cons kv rest ih =>
    intro m2 k h
    simp only [alookup, List.cons_append] at h ⊢
    by_cases hk : kv.1 = k
    · rw [if_pos hk] at h; exact absurd h (by simp)
    · rw [if_neg hk] at h ⊢
      exact ih m2 k h

theorem alookup_setdefault_some (m : List (List Nat × Json)) (k' : List Nat) (v' : Json)
    {k : List Nat} {v : Json} (h : alookup m k = some v) :
    alookup (setdefault m k' v') k = some v := by
  simp only [setdefault]
  split
  · exact h
  · exact alookup_append_some m _ k v h

theorem hasKey_false_iff (m : List (List Nat × Json)) (k : List Nat) :
    hasKey m k = false ↔ alookup m k = none := by
  simp [hasKey, Option.isSome]
  split <;> simp_all

theorem hasKey_true_iff (m : List (List Nat × Json)) (k : List Nat) :
    hasKey m k = true ↔ ∃ v, alookup m k = some v := by
  simp [hasKey, Option.isSome]
  split <;> simp_all

theorem defaultsFold_some (fs : List String) :
    ∀ (m : List (List Nat × Json)) (k : List Nat) (v : Json),
      alookup m k = some v → alookup (defaultsFold fs m) k = some v := by
  induction fs with
  | nil => intro m k v h; exact h
  | cons g fs ih =>
    intro m k v h
    simp only [defaultsFold, List.foldl_cons]
    exact ih _ k v (alookup_setdefault_some m (codes g) unknownJson h)

theorem defaultsFold_mem_hasKey (fs : List String) :
    ∀ (m : List (List Nat × Json)) (f : String), f ∈ fs →
      hasKey (defaultsFold fs m) (codes f) = true := by
  induction fs with
  | nil => intro m f hf; exact absurd hf (by simp)
  | cons g fs ih =>
    intro m f hf
    by_cases hfg : f ∈ fs
    · exact ih _ f hfg
    · have hfg' : f = g := by
        rcases List.mem_cons.mp hf with h | h
        · exact h
        · exact absurd h hfg
      subst hfg'
      simp only [defaultsFold, List.foldl_cons]
      have hsd : ∃ v, alookup (setdefault m (codes f) unknownJson) (codes f) = some v := by
        simp only [setdefault]
        split
        · next hk => exact (hasKey_true_iff m (codes f)).mp hk
        · next hk =>
          refine ⟨unknownJson, ?_⟩
          rw [alookup_append_none m _ _ ((hasKey_false_iff m (codes f)).mp (by simpa using hk))]
          simp [alookup]
      rcases hsd with ⟨v, hv⟩
      exact (hasKey_true_iff _ _).mpr ⟨v, defaultsFold_some fs _ _ _ hv⟩

theorem defaultsFold_absent (fs : List String) :
    ∀ (m : List (List Nat × Json)) (f : String), f ∈ fs →
      alookup m (codes f) = none →
      alookup (defaultsFold fs m) (codes f) = some unknownJson := by
  induction fs with
  | nil => intro m f hf; exact absurd hf (by simp)
  | cons g fs ih =>
    intro m f hf hnone
    simp only [defaultsFold, List.foldl_cons]
    by_cases hfg : f = g
    · subst hfg
      have hstep : alookup (setdefault m (codes f) unknownJson) (codes f) = some unknownJson := by
        simp only [setdefault]
        rw [if_neg (by simp [hasKey, hnone])]
        rw [alookup_append_none m _ _ hnone]
        simp [alookup]
      exact defaultsFold_some fs _ _ _ hstep
    · have hf' : f ∈ fs := by
        rcases List.mem_cons.mp hf with h | h
        · exact absurd h hfg
        · exact h
      have hstep : alookup (setdefault m (codes g) unknownJson) (codes f) = none := by
        simp only [setdefault]
        split
        · exact hnone
        · rw [alookup_append_none m _ _ hnone]
          simp only [alookup]
          rw [if_neg (fun he => hfg (codes_inj he).symm)]
      exact ih _ f hf' hstep

theorem defaultsFold_stable (fs : List String) :
    ∀ (m : List (List Nat × Json)), (∀ f ∈ fs, hasKey m (codes f) = true) →
      defaultsFold fs m = m := by
  induction fs with
  | nil => intro m _; rfl
  | cons g fs ih =>
    intro m hm
    simp only [defaultsFold, List.foldl_cons, setdefault]
    rw [if_pos (hm g (List.mem_cons_self _ _))]
    exact ih m fun f hf => hm f (List.mem_cons_of_mem _ hf)

/-! ### Round-trip lemmas: the parser inverts the serializer -/

theorem hexVal_hexDigit (m : Nat) (h : m < 16) : hexVal (hexDigit m) = some m := by
  simp only [hexDigit, hexVal]
  by_cases h10 : m < 10
  · rw [if_pos h10, if_pos (by omega)]
    congr 1
    omega
  · rw [if_neg h10, if_neg (by omega), if_neg (by omega), if_pos (by omega)]
    congr 1
    omega

theorem decode4hex_hex4 (n : Nat) (h : n < 65536) (rest : List Nat) :
    decode4hex (hex4 n ++ rest) = some (n, rest) := by
  have h1 : n / 4096 % 16 < 16 := Nat.mod_lt _ (by omega)
  have h2 : n / 256 % 16 < 16 := Nat.mod_lt _ (by omega)
  have h3 : n / 16 % 16 < 16 := Nat.mod_lt _ (by omega)
  have h4 : n % 16 < 16 := Nat.mod_lt _ (by omega)
  simp only [hex4, List.cons_append, List.nil_append, decode4hex,
    hexVal_hexDigit _ h1, hexVal_hexDigit _ h2, hexVal_hexDigit _ h3, hexVal_hexDigit _ h4]
  have he : (((n / 4096 % 16) * 16 + n / 256 % 16) * 16 + n / 16 % 16) * 16 + n % 16 = n := by
    omega
  rw [he]

theorem natDigits_all_digit (m : Nat) : ∀ c ∈ natDigits m, isDigit c = true := by
  induction m using Nat.strong_induction_on with
  | _ m ih =>
    rw [natDigits]
    split
    · next h =>
      intro c hc
      simp only [List.mem_singleton] at hc
      subst hc
      simp only [isDigit, decide_eq_true_eq]
      omega
    · next h =>
      intro c hc
      rcases List.mem_append.mp hc with h1 | h1
      · exact ih (m / 10) (Nat.div_lt_self (by omega) (by omega)) c h1
      · simp only [List.mem_singleton] at h1
        subst h1
        simp only [isDigit, decide_eq_true_eq]
        have := Nat.mod_lt m (show 0 < 10 by omega)
        omega

theorem digitsToNat_append (ds : List Nat) (d : Nat) :
    digitsToNat (ds ++ [d]) = digitsToNat ds * 10 + (d - 48) := by
  simp [digitsToNat, List.foldl_append]

theorem digitsToNat_natDigits (m : Nat) : digitsToNat (natDigits m) = m := by
  induction m using Nat.strong_induction_on with
  | _ m ih =>
    rw [natDigits]
    split
    · next h =>
      simp only [digitsToNat, List.foldl_cons, List.foldl_nil]
      omega
    · next h =>
      rw [digitsToNat_append, ih (m / 10) (Nat.div_lt_self (by omega) (by omega))]
      omega

theorem natDigits_head_cons (m : Nat) :
    ∃ d ds, natDigits m = d :: ds ∧ isDigit d = true ∧ (m ≠ 0 → d ≠ 48) := by
  induction m using Nat.strong_induction_on with
  | _ m ih =>
    rw [natDigits]
    split
    · next h =>
      refine ⟨48 + m, [], rfl, by simp [isDigit]; omega, fun hm => by omega⟩
    · next h =>
      rcases ih (m / 10) (Nat.div_lt_self (by omega) (by omega)) with ⟨d, ds, hds, hdig, h48⟩
      refine ⟨d, ds ++ [48 + m % 10], by rw [hds]; rfl, hdig, fun _ => h48 (by omega)⟩

theorem takeDigits_append (ds : List Nat) (hds : ∀ c ∈ ds, isDigit c = true)
    (rest : List Nat) (hrest : ∀ r, rest.head? = some r → isDigit r = false) :
    takeDigits (ds ++ rest) = (ds, rest) := by
  induction ds with
  | nil =>
    cases rest with
    | nil => rfl
    | cons r rs =>
      have hr := hrest r rfl
      simp [takeDigits, hr]
  | cons d ds ih =>
    have hd := hds d (List.mem_cons_self _ _)
    simp only [List.cons_append, takeDigits, hd, if_true, List.append_eq]
    rw [ih (fun c hc => hds c (List.mem_cons_of_mem _ hc))]


theorem fracPart_boundary (rest : List Nat)
    (hb : ∀ r, rest.head? = some r → r ≠ 46) : fracPart rest = ([], rest) := by
  unfold fracPart
  split
  · next d' ds' => exact absurd rfl (hb 46 rfl)
  · rfl

theorem expPart_boundary (rest : List Nat)
    (hb : ∀ r, rest.head? = some r → r ≠ 101 ∧ r ≠ 69) : expPart rest = ([], rest) := by
  unfold expPart
  split
  · next e' rest' =>
    rcases hb e' rfl with ⟨h1, h2⟩
    rw [if_neg (by tauto)]
  · rfl

theorem pNumber_digits (m : Nat) (rest : List Nat) (hb : numBoundary rest) :
    pNumber (natDigits m ++ rest) = some (.num (m : Int), rest) := by
  obtain ⟨d, ds, hds, hdig, h48⟩ := natDigits_head_cons m
  have hall := natDigits_all_digit m
  have hd45 : d ≠ 45 := by
    have := hall d (by rw [hds]; exact List.mem_cons_self _ _)
    simp only [isDigit, decide_eq_true_eq] at this
    omega
  have hfr : fracPart rest = ([], rest) :=
    fracPart_boundary rest (fun r hr => (hb r hr).2.1)
  have hex : expPart rest = ([], rest) :=
    expPart_boundary rest (fun r hr => ⟨(hb r hr).2.2.1, (hb r hr).2.2.2⟩)
  by_cases hm : m = 0
  · subst hm
    have h0 : natDigits 0 = [48] := by simp [natDigits]
    rw [h0]
    simp only [List.cons_append, List.nil_append]
    simp only [pNumber, List.head?_cons]
    rw [if_neg (show ¬ (some 48 = some (45 : Nat)) by simp)]
    dsimp only
    rw [if_pos (show (48 : Nat) = 48 ∨ isDigit 48 = true ∧ (48 : Nat) ≠ 48 from Or.inl rfl)]
    rw [if_pos (show (48 : Nat) = 48 from rfl)]
    dsimp only
    rw [hfr]
    dsimp only
    rw [hex]
    rw [if_pos ⟨rfl, rfl⟩]
    rfl
  · rw [hds]
    simp only [List.cons_append]
    have hd48 := h48 hm
    simp only [pNumber, List.head?_cons]
    rw [if_neg (show ¬ (some d = some 45) from fun h => hd45 (Option.some.inj h))]
    dsimp only
    rw [if_pos (Or.inr ⟨hdig, hd48⟩), if_neg hd48]
    have htd : takeDigits (d :: (ds ++ rest)) = (d :: ds, rest) := by
      have h2 := takeDigits_append (d :: ds)
        (fun c hc => hall c (by rw [hds]; exact hc)) rest
        (fun r hr => (hb r hr).1)
      simpa using h2
    rw [htd]
    dsimp only
    rw [hfr]
    dsimp only
    rw [hex]
    rw [if_pos ⟨rfl, rfl⟩]
    rw [show digitsToNat (d :: ds) = m from by rw [← hds]; exact digitsToNat_natDigits m]
    rw [if_neg (show ¬ (some d = some 45) from fun h => hd45 (Option.some.inj h))]

theorem pNumber_dumpInt (n : Int) (rest : List Nat) (hb : numBoundary rest) :
    pNumber (dumpInt n ++ rest) = some (.num n, rest) := by
  by_cases hn : n < 0
  · simp only [dumpInt, if_pos hn, List.cons_append]
    obtain ⟨d, ds, hds, hdig, h48⟩ := natDigits_head_cons n.natAbs
    have hall := natDigits_all_digit n.natAbs
    have habs : n.natAbs ≠ 0 := by omega
    have hfr : fracPart rest = ([], rest) :=
      fracPart_boundary rest (fun r hr => (hb r hr).2.1)
    have hex : expPart rest = ([], rest) :=
      expPart_boundary rest (fun r hr => ⟨(hb r hr).2.2.1, (hb r hr).2.2.2⟩)
    simp only [pNumber, List.head?_cons, if_true, List.tail_cons]
    rw [hds]
    simp only [List.cons_append]
    have hd48 := h48 habs
    rw [if_pos (Or.inr ⟨hdig, hd48⟩), if_neg hd48]
    have htd : takeDigits (d :: (ds ++ rest)) = (d :: ds, rest) := by
      have h2 := takeDigits_append (d :: ds)
        (fun c hc => hall c (by rw [hds]; exact hc)) rest
        (fun r hr => (hb r hr).1)
      simpa using h2
    rw [htd]
    dsimp only
    rw [hfr]
    dsimp only
    rw [hex]
    rw [if_pos ⟨rfl, rfl⟩]
    rw [show digitsToNat (d :: ds) = n.natAbs from by
      rw [← hds]; exact digitsToNat_natDigits n.natAbs]
    have hval : (-(n.natAbs : Int)) = n := by omega
    rw [hval]
  · simp only [dumpInt, if_neg hn]
    rw [pNumber_digits n.toNat rest hb, Int.toNat_of_nonneg (by omega)]

theorem hex4_length (n : Nat) : (hex4 n).length = 4 := rfl

theorem escString_cons (c : Nat) (s : List Nat) :
    escString (c :: s) = escChar c ++ escString s := by
  simp [escString]

/-- The scanner step for an escaped surrogate pair, with the two hex-quad
texts abstracted by their `decode4hex` readings. -/
theorem pString_surrogate_step (f : Nat) (h1 h2 X : List Nat) (hi lo : Nat)
    (hd1 : decode4hex (h1 ++ (92 :: 117 :: (h2 ++ X))) = some (hi, 92 :: 117 :: (h2 ++ X)))
    (hd2 : decode4hex (h2 ++ X) = some (lo, X))
    (hhi : 55296 ≤ hi ∧ hi < 56320) (hlo : 56320 ≤ lo ∧ lo < 57344) :
    pString (f + 1) (92 :: 117 :: (h1 ++ (92 :: 117 :: (h2 ++ X)))) =
      (pString f X).map (fun p => ((65536 + (hi - 55296) * 1024 + (lo - 56320)) :: p.1, p.2)) := by
  simp [pString, hd1, hd2, if_pos hhi, if_pos hlo]

theorem pString_escString (s : List Nat) (hs : ∀ c ∈ s, isScalar c) :
    ∀ (rest : List Nat) (fuel : Nat), (escString s).length + 1 ≤ fuel →
      pString fuel (escString s ++ 34 :: rest) = some (s, rest) := by
  induction s with
  | nil =>
    intro rest fuel hf
    obtain ⟨f, rfl⟩ : ∃ f, fuel = f + 1 := ⟨fuel - 1, by omega⟩
    simp [escString, pString]
  | cons c s ih =>
    intro rest fuel hf
    have hc := hs c (List.mem_cons_self _ _)
    have hs' : ∀ x ∈ s, isScalar x := fun x hx => hs x (List.mem_cons_of_mem _ hx)
    rw [escString_cons] at hf ⊢
    by_cases h34 : c = 34
    · subst h34
      have he : escChar 34 = [92, 34] := by simp [escChar]
      rw [he] at hf ⊢
      obtain ⟨f, rfl⟩ : ∃ f, fuel = f + 1 := ⟨fuel - 1, by omega⟩
      have hrec := ih hs' rest f (by simp at hf ⊢; omega)
      simp [pString, hrec]
    by_cases h92 : c = 92
    · subst h92
      have he : escChar 92 = [92, 92] := by simp [escChar]
      rw [he] at hf ⊢
      obtain ⟨f, rfl⟩ : ∃ f, fuel = f + 1 := ⟨fuel - 1, by omega⟩
      have hrec := ih hs' rest f (by simp at hf ⊢; omega)
      simp [pString, hrec]
    by_cases h8 : c = 8
    · subst h8
      have he : escChar 8 = [92, 98] := by simp [escChar]
      rw [he] at hf ⊢
      obtain ⟨f, rfl⟩ : ∃ f, fuel = f + 1 := ⟨fuel - 1, by omega⟩
      have hrec := ih hs' rest f (by simp at hf ⊢; omega)
      simp [pString, hrec]
    by_cases h9 : c = 9
    · subst h9
      have he : escChar 9 = [92, 116] := by simp [escChar]
      rw [he] at hf ⊢
      obtain ⟨f, rfl⟩ : ∃ f, fuel = f + 1 := ⟨fuel - 1, by omega⟩
      have hrec := ih hs' rest f (by simp at hf ⊢; omega)
      simp [pString, hrec]
    by_cases h10 : c = 10
    · subst h10
      have he : escChar 10 = [92, 110] := by simp [escChar]
      rw [he] at hf ⊢
      obtain ⟨f, rfl⟩ : ∃ f, fuel = f + 1 := ⟨fuel - 1, by omega⟩
      have hrec := ih hs' rest f (by simp at hf ⊢; omega)
      simp [pString, hrec]
    by_cases h12 : c = 12
    · subst h12
      have he : escChar 12 = [92, 102] := by simp [escChar]
      rw [he] at hf ⊢
      obtain ⟨f, rfl⟩ : ∃ f, fuel = f + 1 := ⟨fuel - 1, by omega⟩
      have hrec := ih hs' rest f (by simp at hf ⊢; omega)
      simp [pString, hrec]
    by_cases h13 : c = 13
    · subst h13
      have he : escChar 13 = [92, 114] := by simp [escChar]
      rw [he] at hf ⊢
      obtain ⟨f, rfl⟩ : ∃ f, fuel = f + 1 := ⟨fuel - 1, by omega⟩
      have hrec := ih hs' rest f (by simp at hf ⊢; omega)
      simp [pString, hrec]
    by_cases hp : 32 ≤ c ∧ c ≤ 126
    · have he : escChar c = [c] := by
        rw [escChar, if_neg h34, if_neg h92, if_neg h8, if_neg h9, if_neg h10,
          if_neg h12, if_neg h13, if_pos hp]
      rw [he] at hf ⊢
      obtain ⟨f, rfl⟩ : ∃ f, fuel = f + 1 := ⟨fuel - 1, by omega⟩
      have hrec := ih hs' rest f (by simp at hf ⊢; omega)
      have hnlt : ¬ (c < 32) := by omega
      simp [pString, h34, h92, hnlt, hrec]
    by_cases h16 : c < 65536
    · have he : escChar c = 92 :: 117 :: hex4 c := by
        rw [escChar, if_neg h34, if_neg h92, if_neg h8, if_neg h9, if_neg h10,
          if_neg h12, if_neg h13, if_neg hp, if_pos h16]
      rw [he] at hf ⊢
      obtain ⟨f, rfl⟩ : ∃ f, fuel = f + 1 := ⟨fuel - 1, by omega⟩
      have hrec := ih hs' rest f (by
        simp only [List.length_append, List.length_cons, hex4_length] at hf ⊢
        omega)
      have hnos : ¬ (55296 ≤ c ∧ c < 56320) := by
        rcases hc with ⟨_, hcs⟩
        omega
      simp only [List.cons_append, List.append_assoc]
      simp [pString, decode4hex_hex4 c h16, if_neg hnos, hrec]
    · -- astral code point: surrogate pair
      have he : escChar c =
          (92 :: 117 :: hex4 (55296 + (c - 65536) / 1024)) ++
          (92 :: 117 :: hex4 (56320 + (c - 65536) % 1024)) := by
        rw [escChar, if_neg h34, if_neg h92, if_neg h8, if_neg h9, if_neg h10,
          if_neg h12, if_neg h13, if_neg hp, if_neg h16]
      rw [he] at hf ⊢
      obtain ⟨f, rfl⟩ : ∃ f, fuel = f + 1 := ⟨fuel - 1, by omega⟩
      have hrec := ih hs' rest f (by
        simp only [List.length_append, List.length_cons, hex4_length] at hf ⊢
        omega)
      have hclt : c < 1114112 := hc.1
      have hdiv : (c - 65536) / 1024 < 1024 := by omega
      have hhi16 : 55296 + (c - 65536) / 1024 < 65536 := by omega
      have hlo16 : 56320 + (c - 65536) % 1024 < 65536 := by
        have := Nat.mod_lt (c - 65536) (show 0 < 1024 by omega)
        omega
      have hhisur : 55296 ≤ 55296 + (c - 65536) / 1024 ∧
          55296 + (c - 65536) / 1024 < 56320 := by omega
      have hlosur : 56320 ≤ 56320 + (c - 65536) % 1024 ∧
          56320 + (c - 65536) % 1024 < 57344 := by
        have := Nat.mod_lt (c - 65536) (show 0 < 1024 by omega)
        omega
      have hcp : 65536 + (55296 + (c - 65536) / 1024 - 55296) * 1024 +
          (56320 + (c - 65536) % 1024 - 56320) = c := by
        have h1 : (55296 + (c - 65536) / 1024 - 55296) = (c - 65536) / 1024 := by omega
        have h2 : (56320 + (c - 65536) % 1024 - 56320) = (c - 65536) % 1024 := by omega
        rw [h1, h2]
        omega
      have hstep := pString_surrogate_step f
        (hex4 (55296 + (c - 65536) / 1024)) (hex4 (56320 + (c - 65536) % 1024))
        (escString s ++ 34 :: rest)
        (55296 + (c - 65536) / 1024) (56320 + (c - 65536) % 1024)
        (decode4hex_hex4 _ hhi16 _) (decode4hex_hex4 _ hlo16 _) hhisur hlosur
      simp only [List.cons_append, List.append_assoc]
      rw [hstep, hrec]
      simp only [Option.map_some']
      rw [hcp]

theorem skipWs_cons (c : Nat) (cs : List Nat) (h : isWs c = false) :
    skipWs (c :: cs) = c :: cs := by
  simp [skipWs, h]

theorem pValue_dumpStr (s : List Nat) (hs : ∀ c ∈ s, isScalar c) (rest : List Nat)
    (fuel : Nat) (hf : (dumpStr s).length + 1 ≤ fuel) :
    pValue fuel (dumpStr s ++ rest) = some (.str s, rest) := by
  obtain ⟨f, rfl⟩ : ∃ f, fuel = f + 1 := ⟨fuel - 1, by omega⟩
  have hps := pString_escString s hs rest f (by
    simp only [dumpStr, List.length_cons, List.length_append] at hf ⊢
    omega)
  simp only [dumpStr, List.cons_append, List.append_assoc, List.singleton_append]
  simp [pValue, hps]

theorem dumpInt_head (n : Int) :
    ∃ c cs, dumpInt n = c :: cs ∧ (c = 45 ∨ isDigit c = true) := by
  by_cases hn : n < 0
  · exact ⟨45, natDigits n.natAbs, by simp [dumpInt, hn], Or.inl rfl⟩
  · obtain ⟨d, ds, hds, hdig, _⟩ := natDigits_head_cons n.toNat
    exact ⟨d, ds, by simp [dumpInt, hn, hds], Or.inr hdig⟩

theorem startsWith_head_ne {p b : Nat} {ps ss : List Nat} (h : p ≠ b) :
    startsWith (p :: ps) (b :: ss) = false := by
  simp [startsWith, h]

theorem pValue_dumpInt (n : Int) (rest : List Nat) (hb : numBoundary rest)
    (fuel : Nat) (hf : 1 ≤ fuel) :
    pValue fuel (dumpInt n ++ rest) = some (.num n, rest) := by
  obtain ⟨f, rfl⟩ : ∃ f, fuel = f + 1 := ⟨fuel - 1, by omega⟩
  rcases dumpInt_head n with ⟨c, cs, hdc, hcd⟩
  have hcrange : c = 45 ∨ (48 ≤ c ∧ c ≤ 57) := by
    rcases hcd with h | h
    · exact Or.inl h
    · simp only [isDigit, decide_eq_true_eq] at h
      exact Or.inr h
  rw [hdc, List.cons_append]
  simp only [pValue]
  rw [if_neg (show ¬ (c = 34) by omega), if_neg (show ¬ (c = 123) by omega),
    if_neg (show ¬ (c = 91) by omega)]
  have hnu : startsWith (codes "null") (c :: (cs ++ rest)) = false := by
    rw [show codes "null" = (110 : Nat) :: [117, 108, 108] from rfl]
    exact startsWith_head_ne (by omega)
  have htr : startsWith (codes "true") (c :: (cs ++ rest)) = false := by
    rw [show codes "true" = (116 : Nat) :: [114, 117, 101] from rfl]
    exact startsWith_head_ne (by omega)
  have hfa : startsWith (codes "false") (c :: (cs ++ rest)) = false := by
    rw [show codes "false" = (102 : Nat) :: [97, 108, 115, 101] from rfl]
    exact startsWith_head_ne (by omega)
  rw [if_neg (by simp [hnu]), if_neg (by simp [htr]), if_neg (by simp [hfa])]
  rw [show c :: (cs ++ rest) = dumpInt n ++ rest from by rw [hdc, List.cons_append]]
  rw [pNumber_dumpInt n rest hb]

/-- Heads of serialized values are never whitespace (they are `"`,`[`,`-` or a
digit), so `skipWs` leaves a serialized field in place. -/
theorem skipWs_dumpField (v : FieldVal) (suf : List Nat) :
    skipWs (dumpField v ++ suf) = dumpField v ++ suf := by
  cases v with
  | s cs => simp only [dumpField, dumpStr, List.cons_append]; exact skipWs_cons _ _ rfl
  | int n =>
    rcases dumpInt_head n with ⟨c, cs, hdc, hcd⟩
    have hcrange : c = 45 ∨ (48 ≤ c ∧ c ≤ 57) := by
      rcases hcd with h | h
      · exact Or.inl h
      · simp only [isDigit, decide_eq_true_eq] at h
        exact Or.inr h
    simp only [dumpField, hdc, List.cons_append]
    exact skipWs_cons _ _ (by simp only [isWs]; simp only [decide_eq_false_iff_not]; omega)
  | strs ss => simp only [dumpField, List.cons_append]; exact skipWs_cons _ _ rfl

theorem joinSep_cons (x : List Nat) (L : List (List Nat)) :
    ∃ K, joinSep (x :: L) = x ++ K := by
  cases L with
  | nil => exact ⟨[], by simp [joinSep]⟩
  | cons y L' => exact ⟨44 :: 32 :: joinSep (y :: L'), rfl⟩

theorem skipWs_ws_cons (c : Nat) (cs : List Nat) (h : isWs c = true) :
    skipWs (c :: cs) = skipWs cs := by
  simp [skipWs, h]

/-- `JSONArray` on input not opening with `]` (after whitespace). -/
theorem pArray_items_step (f : Nat) (c : Nat) (cs : List Nat)
    (hws : isWs c = false) (hc : c ≠ 93) :
    pArray (f + 1) (c :: cs) =
      (pArrayItems f (c :: cs)).map (fun p => (Json.arr p.1, p.2)) := by
  simp only [pArray, skipWs_cons c cs hws]
  split
  · next heq =>
    exact absurd (List.head_eq_of_cons_eq heq) hc
  · rfl

theorem pArrayItems_dumpStrs (ss : List (List Nat))
    (hss : ∀ s ∈ ss, ∀ c ∈ s, isScalar c) (hne : ss ≠ []) :
    ∀ (rest : List Nat) (fuel : Nat), (joinSep (ss.map dumpStr)).length + 2 ≤ fuel →
      pArrayItems fuel (joinSep (ss.map dumpStr) ++ 93 :: rest) =
        some (ss.map Json.str, rest) := by
  induction ss with
  | nil => exact absurd rfl hne
  | cons s0 ss ih =>
    intro rest fuel hf
    have hs0 : ∀ c ∈ s0, isScalar c := hss s0 (List.mem_cons_self _ _)
    cases ss with
    | nil =>
      simp only [List.map_cons, List.map_nil, joinSep] at hf ⊢
      obtain ⟨f, rfl⟩ : ∃ f, fuel = f + 1 := ⟨fuel - 1, by omega⟩
      have hv := pValue_dumpStr s0 hs0 (93 :: rest) f (by omega)
      simp only [pArrayItems, hv]
      rw [skipWs_cons 93 rest rfl]
    | cons s1 ss' =>
      simp only [List.map_cons, joinSep] at hf ⊢
      obtain ⟨f, rfl⟩ : ∃ f, fuel = f + 1 := ⟨fuel - 1, by omega⟩
      simp only [List.append_assoc, List.cons_append]
      have hv := pValue_dumpStr s0 hs0
        (44 :: 32 :: (joinSep (dumpStr s1 :: ss'.map dumpStr) ++ 93 :: rest)) f (by
          simp only [List.length_append, List.length_cons] at hf ⊢
          omega)
      simp only [pArrayItems, hv]
      show (pArrayItems f
          (skipWs (32 :: (joinSep (dumpStr s1 :: ss'.map dumpStr) ++ 93 :: rest)))).map
            (fun p => (Json.str s0 :: p.1, p.2)) =
          some (Json.str s0 :: (s1 :: ss').map Json.str, rest)
      rw [skipWs_ws_cons 32 _ rfl]
      have hsw : skipWs (joinSep (dumpStr s1 :: ss'.map dumpStr) ++ 93 :: rest) =
          joinSep (dumpStr s1 :: ss'.map dumpStr) ++ 93 :: rest := by
        rcases joinSep_cons (dumpStr s1) (ss'.map dumpStr) with ⟨K, hK⟩
        rw [hK]
        simp only [dumpStr, List.cons_append, List.append_assoc]
        exact skipWs_cons 34 _ rfl
      rw [hsw]
      have hrec := ih (fun s hs => hss s (List.mem_cons_of_mem _ hs)) (by simp) rest f (by
        simp only [List.map_cons, List.length_append, List.length_cons] at hf ⊢
        omega)
      simp only [List.map_cons] at hrec
      rw [hrec]
      rfl

theorem pValue_dumpField (v : FieldVal)
    (hv : (match v with
           | .s cs => ∀ c ∈ cs, isScalar c
           | .int _ => True
           | .strs ss => ∀ s ∈ ss, ∀ c ∈ s, isScalar c))
    (rest : List Nat) (hb : numBoundary rest) (fuel : Nat)
    (hf : (dumpField v).length + 2 ≤ fuel) :
    pValue fuel (dumpField v ++ rest) = some (fieldToJson v, rest) := by
  cases v with
  | s cs =>
    exact pValue_dumpStr cs hv rest fuel (by
      simp only [dumpField, List.length_cons, List.length_append] at hf ⊢
      omega)
  | int n =>
    exact pValue_dumpInt n rest hb fuel (by omega)
  | strs ss =>
    obtain ⟨f, rfl⟩ : ∃ f, fuel = f + 1 := ⟨fuel - 1, by omega⟩
    simp only [dumpField, List.cons_append, List.append_assoc, List.nil_append] at hf ⊢
    simp only [pValue]
    rw [if_neg (by decide : ¬ ((91 : Nat) = 34)), if_neg (by decide : ¬ ((91 : Nat) = 123)),
      if_pos trivial]
    obtain ⟨f', rfl⟩ : ∃ f', f = f' + 1 := ⟨f - 1, by
      simp only [List.length_cons, List.length_append] at hf
      omega⟩
    cases ss with
    | nil =>
      simp only [List.map_nil, joinSep, List.nil_append, pArray, List.singleton_append]
      rw [skipWs_cons 93 rest rfl]
      rfl
    | cons s0 ss' =>
      rcases joinSep_cons (dumpStr s0) (ss'.map dumpStr) with ⟨K, hK⟩
      have hE : joinSep ((s0 :: ss').map dumpStr) ++ 93 :: rest =
          34 :: (escString s0 ++ 34 :: (K ++ 93 :: rest)) := by
        rw [List.map_cons, hK]
        simp only [dumpStr, List.cons_append, List.append_assoc, List.singleton_append,
          List.nil_append]
      rw [hE, pArray_items_step f' 34 _ rfl (by decide), ← hE]
      have hitems := pArrayItems_dumpStrs (s0 :: ss') hv (by simp) rest f' (by
        simp only [List.map_cons, List.length_cons, List.length_append] at hf ⊢
        omega)
      simp only [List.map_cons] at hitems ⊢
      rw [hitems]
      rfl

theorem dumpMember_expand (k : List Nat) (v : FieldVal) (suf : List Nat) :
    dumpMember (k, v) ++ suf =
      34 :: (escString k ++ 34 :: (58 :: 32 :: (dumpField v ++ suf))) := by
  simp only [dumpMember, dumpStr, List.cons_append, List.append_assoc,
    List.singleton_append, List.nil_append]

theorem numBoundary_125 (rest : List Nat) : numBoundary (125 :: rest) := by
  intro r hr
  simp only [List.head?_cons, Option.some.injEq] at hr
  subst hr
  refine ⟨by simp [isDigit], by omega, by omega, by omega⟩

theorem numBoundary_44 (y : List Nat) : numBoundary (44 :: y) := by
  intro r hr
  simp only [List.head?_cons, Option.some.injEq] at hr
  subst hr
  refine ⟨by simp [isDigit], by omega, by omega, by omega⟩

theorem pMembers_dumpMembers (r : List (List Nat × FieldVal)) (hr : recordWF r)
    (hne : r ≠ []) :
    ∀ (rest : List Nat) (fuel : Nat), (joinSep (r.map dumpMember)).length + 1 ≤ fuel →
      pMembers fuel (joinSep (r.map dumpMember) ++ 125 :: rest) =
        some (r.map (fun kv => (kv.1, fieldToJson kv.2)), rest) := by
  induction r with
  | nil => exact absurd rfl hne
  | cons kv r ih =>
    intro rest fuel hf
    obtain ⟨k, v⟩ := kv
    have hkv := hr (k, v) (List.mem_cons_self _ _)
    have hk : ∀ c ∈ k, isScalar c := hkv.1
    have hv := hkv.2
    cases r with
    | nil =>
      simp only [List.map_cons, List.map_nil, joinSep] at hf ⊢
      obtain ⟨f, rfl⟩ : ∃ f, fuel = f + 1 := ⟨fuel - 1, by omega⟩
      rw [dumpMember_expand]
      have hlen : (dumpMember (k, v)).length =
          (escString k).length + 4 + (dumpField v).length := by
        simp only [dumpMember, dumpStr, List.length_append, List.length_cons,
          List.length_nil]
        omega
      have hps := pString_escString k hk (58 :: 32 :: (dumpField v ++ 125 :: rest)) f (by
        rw [hlen] at hf
        omega)
      have hvv := pValue_dumpField v hv (125 :: rest) (numBoundary_125 rest) f (by
        rw [hlen] at hf
        omega)
      have hswf := skipWs_dumpField v (125 :: rest)
      simp only [pMembers, hps, skipWs_cons 58 _ rfl, skipWs_ws_cons 32 _ rfl, hswf,
        hvv, skipWs_cons 125 _ rfl]
    | cons kv2 r' =>
      simp only [List.map_cons, joinSep] at hf ⊢
      obtain ⟨f, rfl⟩ : ∃ f, fuel = f + 1 := ⟨fuel - 1, by omega⟩
      simp only [List.append_assoc, List.cons_append]
      rw [dumpMember_expand]
      have hlen : (dumpMember (k, v)).length =
          (escString k).length + 4 + (dumpField v).length := by
        simp only [dumpMember, dumpStr, List.length_append, List.length_cons,
          List.length_nil]
        omega
      have hps := pString_escString k hk
        (58 :: 32 :: (dumpField v ++
          44 :: 32 :: (joinSep (dumpMember kv2 :: r'.map dumpMember) ++ 125 :: rest))) f (by
        simp only [List.length_append, List.length_cons] at hf
        rw [hlen] at hf
        omega)
      have hvv := pValue_dumpField v hv
        (44 :: 32 :: (joinSep (dumpMember kv2 :: r'.map dumpMember) ++ 125 :: rest))
        (numBoundary_44 _) f (by
        simp only [List.length_append, List.length_cons] at hf
        rw [hlen] at hf
        omega)
      have hswf := skipWs_dumpField v
        (44 :: 32 :: (joinSep (dumpMember kv2 :: r'.map dumpMember) ++ 125 :: rest))
      obtain ⟨k2, v2⟩ := kv2
      rcases joinSep_cons (dumpMember (k2, v2)) (r'.map dumpMember) with ⟨K, hK⟩
      have hE : joinSep (dumpMember (k2, v2) :: r'.map dumpMember) ++ 125 :: rest =
          34 :: (escString k2 ++ 34 :: (58 :: 32 :: (dumpField v2 ++ (K ++ 125 :: rest)))) := by
        rw [hK, List.append_assoc, dumpMember_expand]
      have hswm : skipWs (joinSep (dumpMember (k2, v2) :: r'.map dumpMember) ++ 125 :: rest) =
          joinSep (dumpMember (k2, v2) :: r'.map dumpMember) ++ 125 :: rest := by
        rw [hE]
        exact skipWs_cons 34 _ rfl
      have hrec := ih (fun p hp => hr p (List.mem_cons_of_mem _ hp)) (by simp) rest f (by
        simp only [List.map_cons, List.length_append, List.length_cons] at hf ⊢
        omega)
      simp only [List.map_cons] at hrec
      simp only [pMembers, hps, skipWs_cons 58 _ rfl, skipWs_ws_cons 32 _ rfl, hswf,
        hvv, skipWs_cons 44 _ rfl, hswm]
      simp only [hrec]
      rw [hE]
      rfl

theorem pObject_members_step (f : Nat) (c : Nat) (cs : List Nat)
    (hws : isWs c = false) (hc : c ≠ 125) :
    pObject (f + 1) (c :: cs) =
      (pMembers f (c :: cs)).map (fun p => (Json.obj p.1, p.2)) := by
  simp only [pObject, skipWs_cons c cs hws]
  split
  · next heq =>
    exact absurd (List.head_eq_of_cons_eq heq) hc
  · rfl

theorem pValue_brace3 (n : Nat) (cs : List Nat) :
    pValue (3 * n + 3) (123 :: cs) = pObject (3 * n + 2) cs := by
  show pValue ((3 * n + 2) + 1) (123 :: cs) = pObject (3 * n + 2) cs
  simp only [pValue]
  rw [if_neg (by decide : ¬ ((123 : Nat) = 34)), if_pos trivial]

theorem pObject_brace3 (n : Nat) (c : Nat) (cs : List Nat)
    (hws : isWs c = false) (hc : c ≠ 125) :
    pObject (3 * n + 2) (c :: cs) =
      (pMembers (3 * n + 1) (c :: cs)).map (fun p => (Json.obj p.1, p.2)) := by
  show pObject ((3 * n + 1) + 1) (c :: cs) = _
  exact pObject_members_step (3 * n + 1) c cs hws hc

theorem json_loads_dumps (r : List (List Nat × FieldVal)) (hr : recordWF r) :
    json_loads (json_dumps_record r) = some (recordToJson r) := by
  cases r with
  | nil =>
    rfl
  | cons kv r' =>
    obtain ⟨k, v⟩ := kv
    rcases joinSep_cons (dumpMember (k, v)) (r'.map dumpMember) with ⟨K, hK⟩
    have hE : joinSep (dumpMember (k, v) :: List.map dumpMember r') ++ [125] =
        34 :: (escString k ++ 34 :: (58 :: 32 :: (dumpField v ++ (K ++ [125])))) := by
      rw [hK, List.append_assoc, dumpMember_expand]
    have hmem := pMembers_dumpMembers ((k, v) :: r') hr (by simp) []
      (3 * ((123 :: (joinSep (dumpMember (k, v) :: List.map dumpMember r') ++
        [125])).length) + 1) (by
        simp only [List.map_cons, List.length_append, List.length_cons, List.length_nil]
        omega)
    simp only [List.map_cons] at hmem
    simp only [json_loads, json_dumps_record, List.map_cons, List.cons_append]
    rw [skipWs_cons 123 _ rfl]
    rw [pValue_brace3]
    rw [hE, pObject_brace3 _ 34 _ rfl (by decide), ← hE]
    rw [hmem]
    rfl

/-! ## Claim theorems -/

/-- Claim C1, code evaluation at the failing input `"3"`: the JSON repair
parser returns the parsed JSON value of the whole payload even when that
value is not a key→value mapping.  `_parse_json_from_string("3")` is the
integer `3`, not a dict, contradicting the function's `Dict[str, Any]`
annotation and the contract (downstream, `summary.setdefault` raises on it). -/
theorem c1_nonobject_result :
    _parse_json_from_string (codes "3") = Json.num 3 ∧
    ∀ kvs, Json.num 3 ≠ Json.obj kvs :=
  ⟨rfl, fun _ h => Json.noConfusion h⟩

/-- Claim C2: if the OpenAI request raises (any exception `e`),
`summarize_project_with_gpt` reports the error (`st.error` is called, first
component `true`), returns normally rather than propagating (outcome `.ok`),
and every Schema Field of `AI_FIELDS` is present in the returned record with
the value `"Unknown"`. -/
theorem c2_backend_failure_all_unknown (e : List Nat) :
    summarize_project_with_gpt (.error e) = .ok (true, applyDefaults []) ∧
    ∀ f ∈ AI_FIELDS, alookup (applyDefaults []) (codes f) = some unknownJson := by
  refine ⟨rfl, fun f hf => ?_⟩
  exact defaultsFold_absent AI_FIELDS [] f hf rfl

set_option maxRecDepth 100000 in
/-- Claim C3, counterexample: on `["clean energy", "ending poverty"]` the code
does not return the two claimed labels — neither candidate reaches similarity
0.6 against any SDG label (the best ratios are 24/47 ≈ 0.51 and 16/32 = 0.5). -/
theorem c3_counterexample :
    ¬ (_match_sdgs ["clean energy", "ending poverty"] =
        ["Affordable and clean energy (SDG 7)", "No poverty (SDG 1)"]) := by
  decide

set_option maxRecDepth 100000 in
/-- Claim C3, amended: `_match_sdgs ["clean energy", "ending poverty"]`
returns the empty list — both candidates are dropped by the 0.6 cutoff. -/
theorem c3_amended_empty :
    _match_sdgs ["clean energy", "ending poverty"] = [] := by
  decide

/-- Claim C4: for every candidate list, the matcher output has at most 3
elements, has no duplicates, draws every element from the fixed vocabulary
`SDG_OPTIONS` (never extending it), and preserves input order (the output is
a sublist of the per-candidate best matches taken in candidate order); the
empty candidate list yields the empty output. -/
theorem c4_matcher_invariants (raw : List String) :
    (_match_sdgs raw).length ≤ 3 ∧
    (_match_sdgs raw).Nodup ∧
    (∀ x ∈ _match_sdgs raw, x ∈ SDG_OPTIONS) ∧
    (_match_sdgs raw).Sublist (raw.filterMap bestOf) ∧
    _match_sdgs [] = ([] : List String) := by
  refine ⟨matchGo_len_le raw [] (by simp), matchGo_nodup raw [] (by simp),
    matchGo_vocab raw [] (by simp), ?_, rfl⟩
  rcases matchGo_sublist raw [] with ⟨extra, he, hsub⟩
  simpa [_match_sdgs, he] using hsub

/-- Claim C4, witness at a concrete input. -/
theorem c4_matcher_invariants_witness :
    (_match_sdgs ["No poverty (SDG 1)"]).length ≤ 3 :=
  (c4_matcher_invariants ["No poverty (SDG 1)"]).1

/-- Claim C5: the Merge/Defaulting step makes every `AI_FIELDS` name present
as a key; every key already present (of any value shape, list-typed values
included) keeps its value unchanged; every absent Schema Field is inserted
with the sentinel `"Unknown"`. -/
theorem c5_defaulting_contract (r : List (List Nat × Json)) :
    (∀ f ∈ AI_FIELDS, hasKey (applyDefaults r) (codes f) = true) ∧
    (∀ (k : List Nat) (v : Json), alookup r k = some v →
      alookup (applyDefaults r) k = some v) ∧
    (∀ f ∈ AI_FIELDS, alookup r (codes f) = none →
      alookup (applyDefaults r) (codes f) = some unknownJson) :=
  ⟨fun f hf => defaultsFold_mem_hasKey AI_FIELDS r f hf,
   fun k v hv => defaultsFold_some AI_FIELDS r k v hv,
   fun f hf hn => defaultsFold_absent AI_FIELDS r f hf hn⟩

/-- Claim C5, witness at a concrete input. -/
theorem c5_defaulting_contract_witness :
    alookup (applyDefaults []) (codes "Problem") = some unknownJson :=
  (c5_defaulting_contract []).2.2 "Problem" (by decide) rfl

/-- Claim C6: the Merge/Defaulting step is idempotent. -/
theorem c6_defaulting_idempotent (r : List (List Nat × Json)) :
    applyDefaults (applyDefaults r) = applyDefaults r :=
  defaultsFold_stable AI_FIELDS (applyDefaults r)
    (fun f hf => defaultsFold_mem_hasKey AI_FIELDS r f hf)

/-- Claim C7: parsing the strict JSON serialization of any record built from
the schema's value shapes (string, integer, or list-of-strings values over
Unicode scalar code points) with the JSON repair parser returns the record
itself; moreover parsing `"not json at all"` yields the empty mapping and
parsing `"prefix {"a":1} suffix"` yields the one-entry mapping `a ↦ 1`. -/
theorem c7_parse_serialize_roundtrip :
    (∀ r : List (List Nat × FieldVal), recordWF r →
      _parse_json_from_string (json_dumps_record r) = recordToJson r) ∧
    _parse_json_from_string (codes "not json at all") = Json.obj [] ∧
    _parse_json_from_string (codes "prefix \x7b\"a\":1\x7d suffix") =
      Json.obj [(codes "a", Json.num 1)] := by
  refine ⟨fun r hr => ?_, ?_, ?_⟩
  · simp only [_parse_json_from_string, json_loads_dumps r hr]
  · rfl
  · rfl

/-- Claim C7, witness: the round trip evaluated at a concrete one-field
record. -/
theorem c7_parse_serialize_roundtrip_witness :
    recordWF [(codes "a", FieldVal.int 1)] ∧
    _parse_json_from_string (json_dumps_record [(codes "a", FieldVal.int 1)]) =
      recordToJson [(codes "a", FieldVal.int 1)] := by
  have hwf : recordWF [(codes "a", FieldVal.int 1)] := by
    intro kv hkv
    rw [List.mem_singleton] at hkv
    subst hkv
    refine ⟨?_, trivial⟩
    intro c hc
    rw [show codes "a" = [97] from rfl, List.mem_singleton] at hc
    subst hc
    exact ⟨by omega, by omega⟩
  exact ⟨hwf, c7_parse_serialize_roundtrip.1 [(codes "a", FieldVal.int 1)] hwf⟩

/-- Claim C8: the Document Text Extractor returns the empty string for
unsupported extensions; spreadsheet reader failures are swallowed into the
empty string (never raised); PDF/Word/Presentation reader failures propagate
to the caller. -/
theorem c8_extractor_error_policy :
    (∀ (ext : String) r1 r2 r3 r4,
        ext ∉ ([".pdf", ".docx", ".pptx", ".xls", ".xlsx"] : List String) →
        extract_text_from_file ext r1 r2 r3 r4 = .ok []) ∧
    (∀ (ext : String) r1 r2 r3 (e : List Nat),
        ext = ".xls" ∨ ext = ".xlsx" →
        extract_text_from_file ext r1 r2 r3 (.error e) = .ok []) ∧
    (∀ r2 r3 r4 (e : List Nat),
        extract_text_from_file ".pdf" (.error e) r2 r3 r4 = .error e) ∧
    (∀ r1 r3 r4 (e : List Nat),
        extract_text_from_file ".docx" r1 (.error e) r3 r4 = .error e) ∧
    (∀ r1 r2 r4 (e : List Nat),
        extract_text_from_file ".pptx" r1 r2 (.error e) r4 = .error e) := by
  refine ⟨?_, ?_, ?_, ?_, ?_⟩
  · intro ext r1 r2 r3 r4 h
    simp only [List.mem_cons, List.not_mem_nil, or_false, not_or] at h
    obtain ⟨h1, h2, h3, h4, h5⟩ := h
    simp only [extract_text_from_file, if_neg h1, if_neg h2, if_neg h3]
    rw [if_neg (by tauto)]
  · intro ext r1 r2 r3 e h
    have h1 : ext ≠ ".pdf" := by rcases h with rfl | rfl <;> decide
    have h2 : ext ≠ ".docx" := by rcases h with rfl | rfl <;> decide
    have h3 : ext ≠ ".pptx" := by rcases h with rfl | rfl <;> decide
    simp only [extract_text_from_file, if_neg h1, if_neg h2, if_neg h3]
    rw [if_pos h]
  · intro r2 r3 r4 e; rfl
  · intro r1 r3 r4 e
    simp [extract_text_from_file]
  · intro r1 r2 r4 e
    simp [extract_text_from_file]

/-- Claim C8, witness at concrete inputs. -/
theorem c8_extractor_error_policy_witness :
    extract_text_from_file ".txt" (.ok []) (.ok []) (.ok []) (.ok []) = .ok [] ∧
    extract_text_from_file ".xlsx" (.ok []) (.ok []) (.ok [])
        (.error (codes "corrupt")) = .ok [] :=
  ⟨c8_extractor_error_policy.1 ".txt" _ _ _ _ (by decide),
   c8_extractor_error_policy.2.1 ".xlsx" _ _ _ _ (Or.inr rfl)⟩

/-- Claim C9: a candidate exactly equal to a canonical SDG label is matched
(similarity `1.0 ≥ 0.6`) and appears in the output, provided the cap of 3 has
not been reached when the candidate is processed (`pre` is what the loop saw
before it). -/
theorem c9_exact_label_matched (pre post : List String) (c : String)
    (hc : c ∈ SDG_OPTIONS) (hlen : (_match_sdgs pre).length < 3) :
    c ∈ _match_sdgs (pre ++ c :: post) := by
  have hbreak := matchGo_break pre (c :: post) [] hlen
  simp only [_match_sdgs] at hlen ⊢
  rw [hbreak]
  have hself : get_close_matches1 c SDG_OPTIONS = some c :=
    get_close_matches1_self hc sdg_options_nodup
  simp only [matchGo, stepOne, hself]
  by_cases hcm : c ∈ matchGo pre []
  · rw [if_pos hcm]
    split
    · exact hcm
    · exact matchGo_mem post _ c hcm
  · rw [if_neg hcm]
    have hcm2 : c ∈ matchGo pre [] ++ [c] := by simp
    split
    · exact hcm2
    · exact matchGo_mem post _ c hcm2

/-- Claim C9, witness at a concrete input. -/
theorem c9_exact_label_matched_witness :
    "No poverty (SDG 1)" ∈ _match_sdgs ["No poverty (SDG 1)"] :=
  c9_exact_label_matched [] [] "No poverty (SDG 1)" (by decide) (by decide)

end ImpactApp
